import Mathlib

/-!
# Colouring-in: the paint-bucket fill and the undo/redo history of `app.js`

A shallow embedding of the region-fill engine of `src/couring in/app.js`
(`matchAt`, `setAt`, the canvas click handler with its scanline flood fill) and
of the history handlers (`snapshot`, undo, redo).

Conventions of the embedding.

* The pixel buffer `imgData.data` (a `Uint8ClampedArray`) is a `List Nat` of
  bytes, four per pixel, row-major. Reading outside the array yields
  `undefined`, modelled by `none`; writing outside the array is ignored;
  a written value is clamped to `255`.
* Coordinates and indices are `Int`, because the handler computes the seed
  index before (and without) any range check.
* A comparison involving `undefined` is `false` (in JavaScript the operand
  becomes `NaN`).
* The work stack is a list whose head is the top: `stack.push` conses,
  `stack.pop` removes the head.
-/

namespace ColouringIn

/-! ## Colour helpers (`app.js`, lines 113-121) -/

/-- A fill colour as produced by `hexToRgba`: the array `[r, g, b, a]`. -/
structure Rgba where
  r : Nat
  g : Nat
  b : Nat
  a : Nat
deriving DecidableEq, Repr

/-- The four values read at the seed index (`startColor`); each one is
`undefined` (`none`) when the index lies outside the buffer. -/
structure Sample where
  r : Option Nat
  g : Option Nat
  b : Option Nat
  a : Option Nat
deriving DecidableEq, Repr

/-- The read `data[idx]` of a typed array: `undefined` outside `[0, length)`. -/
def readAt (data : List Nat) (idx : Int) : Option Nat :=
  if idx < 0 then none else data[idx.toNat]?

/-- The write `data[idx] = v` of a `Uint8ClampedArray`: ignored outside the
array, the value clamped to `255`. -/
def writeAt (data : List Nat) (idx : Int) (v : Nat) : List Nat :=
  if idx < 0 then data else data.set idx.toNat (min v 255)

/-- The test `Math.abs(a - b) <= tol`; `false` when an operand is `undefined`. -/
def absLe (a b : Option Nat) (tol : Nat) : Bool :=
  match a, b with
  | some u, some v => decide (Int.natAbs ((u : Int) - (v : Int)) ≤ tol)
  | _, _ => false

/-- The function `matchAt(data, idx, target, tol)`. -/
def matchAt (data : List Nat) (idx : Int) (target : Sample) (tol : Nat) : Bool :=
  absLe (readAt data idx) target.r tol &&
  absLe (readAt data (idx + 1)) target.g tol &&
  absLe (readAt data (idx + 2)) target.b tol &&
  absLe (readAt data (idx + 3)) target.a tol

/-- The function `setAt(data, idx, rgba)`: three channels from `rgba`, alpha `255`. -/
def setAt (data : List Nat) (idx : Int) (rgba : Rgba) : List Nat :=
  writeAt (writeAt (writeAt (writeAt data idx rgba.r) (idx + 1) rgba.g) (idx + 2) rgba.b)
    (idx + 3) 255

/-! ## The `visited` bitmap (`new Uint8Array(w * h)`) -/

/-- The test `visited[k]` as a truth value: `undefined` (out of range) is falsy. -/
def visitedAt (visited : List Bool) (k : Int) : Bool :=
  if k < 0 then false else visited.getD k.toNat false

/-- The write `visited[k] = 1`; ignored outside the array. -/
def markVisited (visited : List Bool) (k : Int) : List Bool :=
  if k < 0 then visited else visited.set k.toNat true

/-! ## The scanline flood fill (`app.js`, lines 149-191) -/

/-- The constant `tol` of the click handler. -/
def tol : Nat := 24

/-- The mutable state of the fill loop. -/
structure FillState where
  data : List Nat
  visited : List Bool
  stack : List (Int × Int)
deriving DecidableEq, Repr

/-- The byte index `(cy * w + sx) * 4` of the pixel at column `sx`, row `cy`. -/
def byteIdx (w : Nat) (sx cy : Int) : Int := (cy * (w : Int) + sx) * 4

/-- The loop `while (sx >= 0) { if (!matchAt(..)) break; sx--; }` entered with
`sx = k >= 0`; the result is the value of `sx` when the loop is left. -/
def scanLeftFrom (data : List Nat) (w : Nat) (cy : Int) (sc : Sample) : Nat → Int
  | 0 => if matchAt data (byteIdx w 0 cy) sc tol then -1 else 0
  | k + 1 =>
    if matchAt data (byteIdx w ((k : Int) + 1) cy) sc tol then scanLeftFrom data w cy sc k
    else (k : Int) + 1

/-- The left scan from `cx` (not entered at all when `cx < 0`). -/
def scanLeft (data : List Nat) (w : Nat) (cy : Int) (sc : Sample) (cx : Int) : Int :=
  if cx < 0 then cx else scanLeftFrom data w cy sc cx.toNat

/-- The loop `while (sx < w) { ... sx++; }` of lines 167-190. The first argument
counts the iterations that remain before `sx` reaches `w`. -/
def scanRight (w h : Nat) (cy : Int) (sc : Sample) (fillCol : Rgba) :
    Nat → Int → FillState → Bool → Bool → FillState
  | 0, _, s, _, _ => s
  | n + 1, sx, s, spanUp, spanDown =>
    if !matchAt s.data (byteIdx w sx cy) sc tol then s
    else
      let data := setAt s.data (byteIdx w sx cy) fillCol
      let visited := markVisited s.visited (cy * (w : Int) + sx)
      -- up
      let up : List (Int × Int) × Bool :=
        if cy > 0 then
          if !visitedAt visited ((cy - 1) * (w : Int) + sx) &&
              matchAt data (byteIdx w sx (cy - 1)) sc tol then
            if !spanUp then ((sx, cy - 1) :: s.stack, true) else (s.stack, spanUp)
          else if spanUp then (s.stack, false) else (s.stack, spanUp)
        else (s.stack, spanUp)
      -- down
      let down : List (Int × Int) × Bool :=
        if cy < (h : Int) - 1 then
          if !visitedAt visited ((cy + 1) * (w : Int) + sx) &&
              matchAt data (byteIdx w sx (cy + 1)) sc tol then
            if !spanDown then ((sx, cy + 1) :: up.1, true) else (up.1, spanDown)
          else if spanDown then (up.1, false) else (up.1, spanDown)
        else (up.1, spanDown)
      scanRight w h cy sc fillCol n (sx + 1) ⟨data, visited, down.1⟩ up.2 down.2

/-- One iteration of `while (stack.length)`: pop, scan left, scan right. -/
def fillStep (w h : Nat) (sc : Sample) (fillCol : Rgba) (s : FillState) : FillState :=
  match s.stack with
  | [] => s
  | (cx, cy) :: rest =>
    let sx := scanLeft s.data w cy sc cx + 1
    scanRight w h cy sc fillCol ((w : Int) - sx).toNat sx ⟨s.data, s.visited, rest⟩ false false

/-- The loop `while (stack.length)` run for at most `fuel` pops: `some` of the
state in which the stack is empty, `none` if `fuel` pops did not empty it. -/
def fillLoop (w h : Nat) (sc : Sample) (fillCol : Rgba) : Nat → FillState → Option FillState
  | 0, s => if s.stack = [] then some s else none
  | fuel + 1, s =>
    if s.stack = [] then some s else fillLoop w h sc fillCol fuel (fillStep w h sc fillCol s)

/-- A number of pops that no fill from a seed inside the buffer reaches
(see `fill_result`). -/
def fillBound (w h : Nat) : Nat := 2 * w * (2 * (w * h) + 1) + 1

/-! ## The click handler (`app.js`, lines 136-147) -/

/-- The four values `[data[startIdx], .., data[startIdx+3]]`. -/
def startColor (data : List Nat) (w : Nat) (x y : Int) : Sample :=
  ⟨readAt data (byteIdx w x y), readAt data (byteIdx w x y + 1),
   readAt data (byteIdx w x y + 2), readAt data (byteIdx w x y + 3)⟩

/-- The comparison `v < 40` of the wall test (`false` on `undefined`). -/
def below40 (v : Option Nat) : Bool :=
  match v with
  | some u => decide (u < 40)
  | none => false

/-- The test `isWall` of line 141. -/
def isWall (sc : Sample) : Bool := below40 sc.r && below40 sc.g && below40 sc.b

/-- The same-colour test of line 145 (strict equality, alpha exactly `255`). -/
def sameColour (fillCol : Rgba) (sc : Sample) : Bool :=
  decide (some fillCol.r = sc.r) && decide (some fillCol.g = sc.g) &&
  decide (some fillCol.b = sc.b) && decide (sc.a = some 255)

/-- The state with which the fill loop is entered. -/
def initState (data : List Nat) (w h : Nat) (x y : Int) : FillState :=
  ⟨data, List.replicate (w * h) false, [(x, y)]⟩

/-- The three ways through the click handler after the seed colour is read:
the return of line 142, the return of line 146, or the fill loop. -/
inductive Outcome where
  | wallSkip
  | sameSkip
  | filled
deriving DecidableEq, Repr

/-- Which way the click handler takes for the seed `(x, y)`. -/
def clickOutcome (w : Nat) (data : List Nat) (x y : Int) (fillCol : Rgba) : Outcome :=
  if isWall (startColor data w x y) then Outcome.wallSkip
  else if sameColour fillCol (startColor data w x y) then Outcome.sameSkip
  else Outcome.filled

/-- The pixel part of the click handler (lines 136-193): the buffer that
`putImageData` writes back, or the unchanged buffer on the two early returns.
The result is `none` only if the loop did not finish within `fillBound w h` pops. -/
def floodFill (w h : Nat) (data : List Nat) (x y : Int) (fillCol : Rgba) : Option (List Nat) :=
  match clickOutcome w data x y fillCol with
  | Outcome.wallSkip => some data
  | Outcome.sameSkip => some data
  | Outcome.filled =>
    (fillLoop w h (startColor data w x y) fillCol (fillBound w h)
      (initState data w h x y)).map FillState.data

/-- The four values stored for the pixel at column `x`, row `y`. -/
def pixel (data : List Nat) (w : Nat) (x y : Int) : List (Option Nat) :=
  [readAt data (byteIdx w x y), readAt data (byteIdx w x y + 1),
   readAt data (byteIdx w x y + 2), readAt data (byteIdx w x y + 3)]

/-! ## Example buffers -/

/-- A black opaque pixel. -/
def blackPx : List Nat := [0, 0, 0, 255]

/-- A white opaque pixel. -/
def whitePx : List Nat := [255, 255, 255, 255]

/-- A red opaque pixel. -/
def redPx : List Nat := [255, 0, 0, 255]

/-- The fill colour red, `hexToRgba('#ff0000')`. -/
def red : Rgba := ⟨255, 0, 0, 255⟩

/-- The 4x4 buffer of the specification: white with a one-pixel black border. -/
def framed4 : List Nat :=
  (blackPx ++ blackPx ++ blackPx ++ blackPx) ++
  (blackPx ++ whitePx ++ whitePx ++ blackPx) ++
  (blackPx ++ whitePx ++ whitePx ++ blackPx) ++
  (blackPx ++ blackPx ++ blackPx ++ blackPx)

/-- The buffer `framed4` with its four interior pixels red. -/
def framed4Red : List Nat :=
  (blackPx ++ blackPx ++ blackPx ++ blackPx) ++
  (blackPx ++ redPx ++ redPx ++ blackPx) ++
  (blackPx ++ redPx ++ redPx ++ blackPx) ++
  (blackPx ++ blackPx ++ blackPx ++ blackPx)

/-! ## History (`app.js`, lines 65-89) and the whole click handler

A snapshot is the string `canvas.toDataURL()`; the embedding keeps the pixel
buffer it encodes. Both stacks are kept in array order, the most recent entry
last.

`restore` does not draw at once: it starts the load of an image and draws in
`im.onload`, after the handler has returned. `undo` and `redo` below describe a
handler together with the completed load of the image it started; `undoClick`,
`redoClick` and `imageLoaded` further down keep the handler and the load apart. -/

/-- The canvas buffer together with the two history stacks. -/
structure App where
  canvas : List Nat
  undoStack : List (List Nat)
  redoStack : List (List Nat)
deriving DecidableEq, Repr

/-- The function `snapshot()`: push, drop the oldest entry beyond 30, clear redo. -/
def snapshot (a : App) : App :=
  let pushed := a.undoStack ++ [a.canvas]
  ⟨a.canvas, if pushed.length > 30 then pushed.tail else pushed, []⟩

/-- The click handler of `undoBtn` followed by the `onload` of the image that
its `restore(prev)` started (`undo_is_click_then_load`). -/
def undo (a : App) : App :=
  match a.undoStack.getLast? with
  | none => a
  | some prev => ⟨prev, a.undoStack.dropLast, a.redoStack ++ [a.canvas]⟩

/-- The click handler of `redoBtn` followed by the `onload` of the image that
its `restore(next)` started (`redo_is_click_then_load`). -/
def redo (a : App) : App :=
  match a.redoStack.getLast? with
  | none => a
  | some next => ⟨next, a.undoStack ++ [a.canvas], a.redoStack.dropLast⟩

/-- The canvas click handler (lines 123-194): `snapshot()` first, then the fill
of the buffer read back from the canvas. -/
def click (w h : Nat) (a : App) (x y : Int) (fillCol : Rgba) : Option App :=
  (floodFill w h (snapshot a).canvas x y fillCol).map
    (fun d => ⟨d, (snapshot a).undoStack, (snapshot a).redoStack⟩)

/-! ## The region of the specification -/

/-- The pixel `(x, y)` lies inside the `w` by `h` buffer. -/
def InB (w h : Nat) (x y : Int) : Prop := 0 ≤ x ∧ x < (w : Int) ∧ 0 ≤ y ∧ y < (h : Int)

/-- Four-adjacency: one step up, down, left or right. -/
def Adj (x y x' y' : Int) : Prop :=
  (x' = x ∧ (y' = y + 1 ∨ y' = y - 1)) ∨ (y' = y ∧ (x' = x + 1 ∨ x' = x - 1))

/-- The pixel `(x, y)` is inside the buffer and its colour in `data` matches
`sc` within `tol` on all four channels. -/
def Matches (w h : Nat) (data : List Nat) (sc : Sample) (x y : Int) : Prop :=
  InB w h x y ∧ matchAt data (byteIdx w x y) sc tol = true

/-- The region of a fill: the pixels reachable from the seed `(x0, y0)` by
four-adjacent steps through pixels of `data` that match `sc`. -/
inductive Reach (w h : Nat) (data : List Nat) (sc : Sample) (x0 y0 : Int) : Int → Int → Prop
  | seed : Matches w h data sc x0 y0 → Reach w h data sc x0 y0 x0 y0
  | step {x y x' y' : Int} : Reach w h data sc x0 y0 x y → Adj x y x' y' →
      Matches w h data sc x' y' → Reach w h data sc x0 y0 x' y'

/-- The four values of a painted pixel: the fill colour, clamped, and alpha `255`. -/
def painted (fillCol : Rgba) : List (Option Nat) :=
  [some (min fillCol.r 255), some (min fillCol.g 255), some (min fillCol.b 255), some 255]

/-- The fill colour black, `hexToRgba('#000000')`. -/
def black : Rgba := ⟨0, 0, 0, 255⟩

/-- A 2x1 buffer: a dark grey pixel `(50,50,50)` beside a darker one `(30,30,30)`. -/
def greyPair : List Nat := [50, 50, 50, 255, 30, 30, 30, 255]

/-- The 2x2 all-white buffer. -/
def white2x2 : List Nat := whitePx ++ whitePx ++ whitePx ++ whitePx

/-- The 2x2 all-red buffer. -/
def red2x2 : List Nat := redPx ++ redPx ++ redPx ++ redPx

/-- A 3x1 buffer: two white pixels separated by a black one. -/
def split3 : List Nat := whitePx ++ blackPx ++ whitePx

/-- A fill colour within 24 of white on every channel, `hexToRgba('#fafafa')`. -/
def nearWhite : Rgba := ⟨250, 250, 250, 255⟩

/-! ## Sequences of history operations -/

/-- One user action that touches the history. -/
inductive HistOp where
  /-- A canvas click (line 125) or the reset button (line 89): `snapshot()`,
  after which the handler repaints the canvas, leaving the buffer `c`. -/
  | draw (c : List Nat)
  /-- The undo button. -/
  | undo
  /-- The redo button. -/
  | redo
deriving DecidableEq, Repr

/-- The state after one action. -/
def applyOp (a : App) : HistOp → App
  | HistOp.draw c => ⟨c, (snapshot a).undoStack, (snapshot a).redoStack⟩
  | HistOp.undo => undo a
  | HistOp.redo => redo a

/-- The state after a sequence of actions, the first one first. -/
def runOps (a : App) (ops : List HistOp) : App := ops.foldl applyOp a

/-- The function `snapshot()` called once for each buffer of the list in turn,
the canvas holding that buffer at the time of the call. -/
def snapshotEach (a : App) : List (List Nat) → App
  | [] => a
  | b :: bs => snapshotEach (snapshot ⟨b, a.undoStack, a.redoStack⟩) bs

/-- Thirty-five distinct one-byte buffers `[0], [1], .., [34]`. -/
def buffers35 : List (List Nat) := (List.range 35).map (fun i => [i])

/-! ## `hexToRgba` (`app.js`, lines 107-112)

A JavaScript string is the list of its UTF-16 code units. A number that
`parseInt` returns is kept as an integer, `none` standing for `NaN` and for
an infinity (`>>` and `&` turn all three into `0`). -/

/-- The UTF-16 code units of a Lean string. -/
def codeUnits (s : String) : List Nat :=
  s.toList.foldr (fun c acc =>
    if c.toNat < 65536 then c.toNat :: acc
    else (55296 + (c.toNat - 65536) / 1024) :: (56320 + (c.toNat - 65536) % 1024) :: acc) []

/-- The value of a code unit as a digit of radix 16, if it is one. -/
def hexDigitVal (c : Nat) : Option Nat :=
  if 48 ≤ c ∧ c ≤ 57 then some (c - 48)
  else if 97 ≤ c ∧ c ≤ 102 then some (c - 87)
  else if 65 ≤ c ∧ c ≤ 70 then some (c - 55)
  else none

/-- The code units that `parseInt` skips at the start of its argument: white
space and line terminators. -/
def isJsSpace (c : Nat) : Bool :=
  c = 9 || c = 10 || c = 11 || c = 12 || c = 13 || c = 32 || c = 160 || c = 5760 ||
  (decide (8192 ≤ c) && decide (c ≤ 8202)) || c = 8232 || c = 8233 || c = 8239 || c = 8287 ||
  c = 12288 || c = 65279

/-- The digits of the longest run of radix-16 digits at the start of `s`. -/
def leadingHexDigits : List Nat → List Nat
  | [] => []
  | c :: cs =>
    match hexDigitVal c with
    | some d => d :: leadingHexDigits cs
    | none => []

/-- The integer that a list of radix-16 digits denotes. -/
def hexValue (ds : List Nat) : Nat := ds.foldl (fun acc d => acc * 16 + d) 0

/-- The Number value of the integer `m`: round to nearest, ties to even, at 53
significant bits; `none` when the result is infinite. -/
def toNumber (m : Nat) : Option Nat :=
  if m < 2 ^ 53 then some m
  else
    let k := Nat.log2 m - 52
    let q := m / 2 ^ k
    let r := m % 2 ^ k
    let up := decide (2 ^ (k - 1) < r) || (decide (r = 2 ^ (k - 1)) && decide (q % 2 = 1))
    let v := (if up then q + 1 else q) * 2 ^ k
    if v < 2 ^ 1024 then some v else none

/-- The call `parseInt(s, 16)`: leading white space, an optional sign, an
optional `0x` or `0X`, then the longest run of digits; `NaN` without a digit. -/
def parseIntHex (s : List Nat) : Option Int :=
  let t := s.dropWhile isJsSpace
  let neg := decide (t.head? = some 45)
  let u := if t.head? = some 43 ∨ t.head? = some 45 then t.tail else t
  let z := if u.take 2 = [48, 120] ∨ u.take 2 = [48, 88] then u.drop 2 else u
  match leadingHexDigits z with
  | [] => none
  | d :: ds => (toNumber (hexValue (d :: ds))).map (fun m => if neg then -(m : Int) else (m : Int))

/-- The conversion `ToInt32` that `>>` applies to its left operand. -/
def toInt32 (n : Option Int) : Int :=
  match n with
  | none => 0
  | some z => (z + 2147483648) % 4294967296 - 2147483648

/-- The expression `(n >> k) & 255` on a 32-bit integer `n`. -/
def shiftMask (n : Int) (k : Nat) : Nat := ((n >>> k) % 256).toNat

/-- The expression `v.split('').map(x => x + x).join('')`. -/
def doubleEach : List Nat → List Nat
  | [] => []
  | c :: cs => c :: c :: doubleEach cs

/-- The function `hexToRgba(hex)`. -/
def hexToRgba (hex : List Nat) : Rgba :=
  let v := hex.erase 35
  let full := if v.length = 3 then doubleEach v else v
  let n := toInt32 (parseIntHex full)
  ⟨shiftMask n 16, shiftMask n 8, shiftMask n 0, 255⟩

/-! ## What one pop pushes and touches -/

/-- The coordinates pushed by the pop made in state `s`: the entries that
`fillStep` leaves on top of what remained of the stack, the last push first. -/
def stepPushes (w h : Nat) (sc : Sample) (fillCol : Rgba) (s : FillState) : List (Int × Int) :=
  (fillStep w h sc fillCol s).stack.take
    ((fillStep w h sc fillCol s).stack.length + 1 - s.stack.length)

/-- The pushes of the first `n` pops from state `s`, pop by pop. -/
def pushLog (w h : Nat) (sc : Sample) (fillCol : Rgba) : Nat → FillState → List (Int × Int)
  | 0, _ => []
  | n + 1, s => stepPushes w h sc fillCol s ++ pushLog w h sc fillCol n (fillStep w h sc fillCol s)

/-- The 3x3 white buffer with a black centre pixel. -/
def ring3 : List Nat :=
  (whitePx ++ whitePx ++ whitePx) ++ (whitePx ++ blackPx ++ whitePx) ++
  (whitePx ++ whitePx ++ whitePx)

/-- The cells `(column, row)` for which the left scan entered with `sx = k`
computes the index `(cy * w + sx) * 4` and compares, in program order. -/
def scanLeftTrace (data : List Nat) (w : Nat) (cy : Int) (sc : Sample) : Nat → List (Int × Int)
  | 0 => [(0, cy)]
  | k + 1 =>
    ((k : Int) + 1, cy) ::
      (if matchAt data (byteIdx w ((k : Int) + 1) cy) sc tol then scanLeftTrace data w cy sc k
       else [])

/-- The cells touched by the left scan from `cx`. -/
def leftTrace (data : List Nat) (w : Nat) (cy : Int) (sc : Sample) (cx : Int) :
    List (Int × Int) :=
  if cx < 0 then [] else scanLeftTrace data w cy sc cx.toNat

/-- The cells for which the right scan computes an index, in program order:
the cell compared (line 169); if it matches, the same cell written and marked
(lines 171-172), the cell above (lines 176-177) when `cy > 0`, and the cell
below (lines 183-184) when `cy < h - 1`. -/
def scanRightTrace (w h : Nat) (cy : Int) (sc : Sample) (fillCol : Rgba) :
    Nat → Int → List Nat → List (Int × Int)
  | 0, _, _ => []
  | n + 1, sx, data =>
    if !matchAt data (byteIdx w sx cy) sc tol then [(sx, cy)]
    else
      (sx, cy) :: (sx, cy) ::
        ((if cy > 0 then [(sx, cy - 1)] else []) ++
         ((if cy < (h : Int) - 1 then [(sx, cy + 1)] else []) ++
          scanRightTrace w h cy sc fillCol n (sx + 1) (setAt data (byteIdx w sx cy) fillCol)))

/-- The cells touched by the pop made in state `s`. -/
def stepTrace (w h : Nat) (sc : Sample) (fillCol : Rgba) (s : FillState) : List (Int × Int) :=
  match s.stack with
  | [] => []
  | (cx, cy) :: _ =>
    leftTrace s.data w cy sc cx ++
      scanRightTrace w h cy sc fillCol ((w : Int) - (scanLeft s.data w cy sc cx + 1)).toNat
        (scanLeft s.data w cy sc cx + 1) s.data

/-! ## History with the deferred `restore` (`app.js`, lines 72-88) -/

/-- The canvas, the two history stacks, and the images whose load `restore` has
started and whose `onload` has not fired yet, in the order the loads started. -/
structure AppD where
  canvas : List Nat
  undoStack : List (List Nat)
  redoStack : List (List Nat)
  loading : List (List Nat)
deriving DecidableEq, Repr

/-- The click handler of `undoBtn` up to its return: the canvas is read for the
redo entry and `restore(prev)` only starts the load of `prev`. -/
def undoClick (a : AppD) : AppD :=
  match a.undoStack.getLast? with
  | none => a
  | some prev => ⟨a.canvas, a.undoStack.dropLast, a.redoStack ++ [a.canvas], a.loading ++ [prev]⟩

/-- The click handler of `redoBtn` up to its return. -/
def redoClick (a : AppD) : AppD :=
  match a.redoStack.getLast? with
  | none => a
  | some next => ⟨a.canvas, a.undoStack ++ [a.canvas], a.redoStack.dropLast, a.loading ++ [next]⟩

/-- The handler `im.onload` of the `i`-th image still loading: the canvas is
cleared and the image drawn (line 86). -/
def imageLoaded (a : AppD) (i : Nat) : AppD :=
  match a.loading[i]? with
  | none => a
  | some im => ⟨im, a.undoStack, a.redoStack, a.loading.eraseIdx i⟩

/-- The state of `App` seen as one with no image loading. -/
def idle (a : App) : AppD := ⟨a.canvas, a.undoStack, a.redoStack, []⟩

/-! ## Vocabulary of the correctness proof -/

/-- The loop test on the buffer `d`: the pixel `(x, y)` matches `sc`. -/
def cur (w : Nat) (sc : Sample) (d : List Nat) (x y : Int) : Bool :=
  matchAt d (byteIdx w x y) sc tol

/-- The pixel `(x, y)` is marked in the bitmap `v`. -/
def vis (w : Nat) (v : List Bool) (x y : Int) : Bool := visitedAt v (y * (w : Int) + x)

/-- The push test of lines 177 and 184: not yet visited and matching. -/
def fresh (w : Nat) (sc : Sample) (d : List Nat) (v : List Bool) (x y : Int) : Bool :=
  !vis w v x y && cur w sc d x y

/-- What one pass of the right scan does, started at column `sx` of row `cy`
with flags `up`, `down` in state `s` and ending in `s'`: it paints and marks the
columns `sx .. e - 1`, touches nothing else, and pushes `pushes`. -/
structure ScanPost (w h : Nat) (cy : Int) (sc : Sample) (fc : Rgba) (sx : Int) (up down : Bool)
    (s s' : FillState) (e : Int) (pushes : List (Int × Int)) : Prop where
  lo : sx ≤ e
  hi : e ≤ (w : Int)
  span_cur : ∀ x, sx ≤ x → x < e → cur w sc s.data x cy = true
  stop : e < (w : Int) → cur w sc s.data e cy = false
  span_px : ∀ x, sx ≤ x → x < e →
    pixel s'.data w x cy = painted fc ∧ vis w s'.visited x cy = true
  frame : ∀ x y, 0 ≤ x → x < (w : Int) → ¬ (y = cy ∧ sx ≤ x ∧ x < e) →
    pixel s'.data w x y = pixel s.data w x y ∧ vis w s'.visited x y = vis w s.visited x y
  len_data : s'.data.length = s.data.length
  len_vis : s'.visited.length = s.visited.length
  mono : ∀ i : Nat, s.visited[i]? = some true → s'.visited[i]? = some true
  stack_eq : s'.stack = pushes ++ s.stack
  push_len : pushes.length ≤ 2 * (e - sx).toNat
  push_ok : ∀ q ∈ pushes, sx ≤ q.1 ∧ q.1 < e ∧ (q.2 = cy - 1 ∨ q.2 = cy + 1) ∧
    0 ≤ q.2 ∧ q.2 < (h : Int) ∧ fresh w sc s.data s.visited q.1 q.2 = true
  cover_up : ∀ x, sx ≤ x → x < e → 0 < cy → fresh w sc s.data s.visited x (cy - 1) = true →
    (up = true ∧ ∀ t, sx ≤ t → t ≤ x → fresh w sc s.data s.visited t (cy - 1) = true) ∨
    (∃ x', (x', cy - 1) ∈ pushes ∧ x' ≤ x ∧
      ∀ t, x' ≤ t → t ≤ x → fresh w sc s.data s.visited t (cy - 1) = true)
  cover_down : ∀ x, sx ≤ x → x < e → cy < (h : Int) - 1 →
    fresh w sc s.data s.visited x (cy + 1) = true →
    (down = true ∧ ∀ t, sx ≤ t → t ≤ x → fresh w sc s.data s.visited t (cy + 1) = true) ∨
    (∃ x', (x', cy + 1) ∈ pushes ∧ x' ≤ x ∧
      ∀ t, x' ≤ t → t ≤ x → fresh w sc s.data s.visited t (cy + 1) = true)

/-- The loop invariant of `while (stack.length)` for the fill of the original
buffer `d0` from the seed `(x0, y0)` with start colour `sc`. -/
structure Inv (w h : Nat) (d0 : List Nat) (sc : Sample) (fc : Rgba) (x0 y0 : Int)
    (s : FillState) : Prop where
  len_data : s.data.length = 4 * w * h
  len_vis : s.visited.length = w * h
  vis_px : ∀ x y, InB w h x y → vis w s.visited x y = true → pixel s.data w x y = painted fc
  unvis_px : ∀ x y, InB w h x y → vis w s.visited x y = false →
    pixel s.data w x y = pixel d0 w x y
  hclosed : ∀ x y, Matches w h d0 sc x y → Matches w h d0 sc (x + 1) y →
    vis w s.visited x y = vis w s.visited (x + 1) y
  stack_ok : ∀ q ∈ s.stack, Reach w h d0 sc x0 y0 q.1 q.2
  vis_reach : ∀ x y, InB w h x y → vis w s.visited x y = true → Reach w h d0 sc x0 y0 x y
  frontier : ∀ x y y', InB w h x y → vis w s.visited x y = true → (y' = y + 1 ∨ y' = y - 1) →
    Matches w h d0 sc x y' →
    vis w s.visited x y' = true ∨
      ∃ x', (x', y') ∈ s.stack ∧ x' ≤ x ∧ ∀ t, x' ≤ t → t ≤ x → Matches w h d0 sc t y'
  seed_in : InB w h x0 y0
  seed : vis w s.visited x0 y0 = true ∨ (x0, y0) ∈ s.stack

/-- The number of cells of the bitmap not yet marked. -/
def unvisited (s : FillState) : Nat := s.visited.count false

/-- Whether the next pop is of no use: `1` if the stack is empty or its top is
already marked, `0` if the top is unmarked. -/
def topStale (w : Nat) (s : FillState) : Nat :=
  match s.stack with
  | [] => 1
  | q :: _ => if vis w s.visited q.1 q.2 then 1 else 0

/-- The measure that every pop decreases. -/
def potential (w : Nat) (s : FillState) : Nat :=
  2 * w * (2 * unvisited s + topStale w s) + s.stack.length

/-! ## Byte-level facts -/

theorem readAt_writeAt (d : List Nat) (i j : Int) (v : Nat) :
    readAt (writeAt d i v) j =
      if i = j ∧ 0 ≤ i ∧ i < (d.length : Int) then some (min v 255) else readAt d j := by
  unfold readAt writeAt
  by_cases hi : i < 0
  · have : ¬ (i = j ∧ 0 ≤ i ∧ i < (d.length : Int)) := by omega
    simp [hi, this]
  · by_cases hj : j < 0
    · have : ¬ (i = j ∧ 0 ≤ i ∧ i < (d.length : Int)) := by omega
      simp [hi, hj, this]
    · simp only [hi, hj, if_false]
      rw [List.getElem?_set]
      by_cases hij : i = j
      · subst hij
        by_cases hl : i < (d.length : Int)
        · have h1 : i.toNat < d.length := by omega
          have h2 : 0 ≤ i := by omega
          simp [h1, h2, hl]
        · have h1 : ¬ i.toNat < d.length := by omega
          simp [h1, hl]
          omega
      · have h1 : ¬ i.toNat = j.toNat := by omega
        simp [h1, hij]

theorem length_writeAt (d : List Nat) (i : Int) (v : Nat) :
    (writeAt d i v).length = d.length := by
  unfold writeAt
  split <;> simp

theorem length_setAt (d : List Nat) (i : Int) (c : Rgba) : (setAt d i c).length = d.length := by
  simp [setAt, length_writeAt]

theorem readAt_setAt_off (d : List Nat) (i j : Int) (c : Rgba) (h : j < i ∨ i + 3 < j) :
    readAt (setAt d i c) j = readAt d j := by
  unfold setAt
  rw [readAt_writeAt, readAt_writeAt, readAt_writeAt, readAt_writeAt]
  have h1 : ¬ (i + 3 = j ∧ 0 ≤ i + 3 ∧ i + 3 < ((writeAt (writeAt (writeAt d i c.r) (i + 1) c.g)
      (i + 2) c.b).length : Int)) := by omega
  have h2 : ¬ (i + 2 = j ∧ 0 ≤ i + 2 ∧ i + 2 < ((writeAt (writeAt d i c.r) (i + 1) c.g).length
      : Int)) := by omega
  have h3 : ¬ (i + 1 = j ∧ 0 ≤ i + 1 ∧ i + 1 < ((writeAt d i c.r).length : Int)) := by omega
  have h4 : ¬ (i = j ∧ 0 ≤ i ∧ i < (d.length : Int)) := by omega
  simp only [h1, h2, h3, h4, if_false]

theorem readAt_setAt_in (d : List Nat) (i : Int) (c : Rgba) (h0 : 0 ≤ i)
    (h3 : i + 3 < (d.length : Int)) :
    readAt (setAt d i c) i = some (min c.r 255) ∧
    readAt (setAt d i c) (i + 1) = some (min c.g 255) ∧
    readAt (setAt d i c) (i + 2) = some (min c.b 255) ∧
    readAt (setAt d i c) (i + 3) = some 255 := by
  unfold setAt
  refine ⟨?_, ?_, ?_, ?_⟩ <;>
  · rw [readAt_writeAt, readAt_writeAt, readAt_writeAt, readAt_writeAt]
    simp only [length_writeAt]
    simp
    omega

/-! ## Pixel-level facts -/

theorem lin_bounds (w h : Nat) (x y : Int) (hb : InB w h x y) :
    0 ≤ y * (w : Int) + x ∧ y * (w : Int) + x < (w : Int) * (h : Int) := by
  obtain ⟨hx0, hxw, hy0, hyh⟩ := hb
  have hw : (0 : Int) ≤ (w : Int) := Int.ofNat_nonneg w
  have h1 : 0 ≤ y * (w : Int) := Int.mul_nonneg hy0 hw
  have h2 : (y + 1) * (w : Int) ≤ (h : Int) * (w : Int) :=
    Int.mul_le_mul_of_nonneg_right (by omega) hw
  have h3 : (y + 1) * (w : Int) = y * (w : Int) + (w : Int) := by ring
  have h4 : (h : Int) * (w : Int) = (w : Int) * (h : Int) := by ring
  constructor
  · omega
  · omega

theorem lin_inj (w : Nat) (x y x' y' : Int) (hx0 : 0 ≤ x) (hxw : x < (w : Int))
    (hx0' : 0 ≤ x') (hxw' : x' < (w : Int))
    (h : y * (w : Int) + x = y' * (w : Int) + x') : x = x' ∧ y = y' := by
  have hw : (0 : Int) ≤ (w : Int) := Int.ofNat_nonneg w
  have key : y = y' := by
    rcases lt_trichotomy y y' with hlt | heq | hgt
    · exfalso
      have h2 : (y + 1) * (w : Int) ≤ y' * (w : Int) :=
        Int.mul_le_mul_of_nonneg_right (by omega) hw
      have h3 : (y + 1) * (w : Int) = y * (w : Int) + (w : Int) := by ring
      omega
    · exact heq
    · exfalso
      have h2 : (y' + 1) * (w : Int) ≤ y * (w : Int) :=
        Int.mul_le_mul_of_nonneg_right (by omega) hw
      have h3 : (y' + 1) * (w : Int) = y' * (w : Int) + (w : Int) := by ring
      omega
  subst key
  exact ⟨by omega, rfl⟩

theorem byteIdx_range (w h : Nat) (d : List Nat) (x y : Int) (hlen : d.length = 4 * w * h)
    (hb : InB w h x y) : 0 ≤ byteIdx w x y ∧ byteIdx w x y + 3 < (d.length : Int) := by
  have h1 := lin_bounds w h x y hb
  have h2 : ((d.length : Nat) : Int) = 4 * ((w : Int) * (h : Int)) := by
    rw [hlen]; push_cast; ring
  unfold byteIdx
  omega

theorem pixel_setAt_same (w h : Nat) (d : List Nat) (x y : Int) (c : Rgba)
    (hlen : d.length = 4 * w * h) (hb : InB w h x y) :
    pixel (setAt d (byteIdx w x y) c) w x y = painted c := by
  obtain ⟨h0, h3⟩ := byteIdx_range w h d x y hlen hb
  obtain ⟨e1, e2, e3, e4⟩ := readAt_setAt_in d (byteIdx w x y) c h0 h3
  simp [pixel, painted, e1, e2, e3, e4]

theorem pixel_setAt_other (w : Nat) (d : List Nat) (x y x' y' : Int) (c : Rgba)
    (hx0 : 0 ≤ x) (hxw : x < (w : Int)) (hx0' : 0 ≤ x') (hxw' : x' < (w : Int))
    (hne : ¬ (x' = x ∧ y' = y)) :
    pixel (setAt d (byteIdx w x y) c) w x' y' = pixel d w x' y' := by
  have hlin : y' * (w : Int) + x' ≠ y * (w : Int) + x := by
    intro h
    exact hne (lin_inj w x' y' x y hx0' hxw' hx0 hxw h)
  have hoff : ∀ k : Int, 0 ≤ k → k ≤ 3 →
      readAt (setAt d (byteIdx w x y) c) (byteIdx w x' y' + k) = readAt d (byteIdx w x' y' + k) := by
    intro k hk0 hk3
    apply readAt_setAt_off
    unfold byteIdx
    omega
  have e0 := hoff 0 (by omega) (by omega)
  rw [add_zero] at e0
  simp [pixel, e0, hoff 1 (by omega) (by omega), hoff 2 (by omega) (by omega),
    hoff 3 (by omega) (by omega)]

theorem matchAt_of_pixel_eq (w : Nat) (d d' : List Nat) (x y x' y' : Int) (sc : Sample) (t : Nat)
    (h : pixel d w x y = pixel d' w x' y') :
    matchAt d (byteIdx w x y) sc t = matchAt d' (byteIdx w x' y') sc t := by
  simp only [pixel, List.cons.injEq, and_true] at h
  obtain ⟨h1, h2, h3, h4⟩ := h
  simp only [matchAt, h1, h2, h3, h4]

theorem visitedAt_markVisited (v : List Bool) (k k' : Int) :
    visitedAt (markVisited v k) k' =
      if k = k' ∧ 0 ≤ k ∧ k < (v.length : Int) then true else visitedAt v k' := by
  unfold visitedAt markVisited
  by_cases hk : k < 0
  · have : ¬ (k = k' ∧ 0 ≤ k ∧ k < (v.length : Int)) := by omega
    simp [hk, this]
  · by_cases hk' : k' < 0
    · have : ¬ (k = k' ∧ 0 ≤ k ∧ k < (v.length : Int)) := by omega
      simp [hk, hk', this]
    · simp only [hk, hk', if_false, List.getD_eq_getElem?_getD]
      rw [List.getElem?_set]
      by_cases hkk : k = k'
      · subst hkk
        by_cases hl : k < (v.length : Int)
        · have h1 : k.toNat < v.length := by omega
          have h2 : 0 ≤ k := by omega
          simp [h1, h2, hl]
        · have h1 : ¬ k.toNat < v.length := by omega
          have h3 : v.length ≤ k.toNat := by omega
          simp [h1, hl, List.getElem?_eq_none h3]
      · have h1 : ¬ k.toNat = k'.toNat := by omega
        simp [h1, hkk]

theorem length_markVisited (v : List Bool) (k : Int) : (markVisited v k).length = v.length := by
  unfold markVisited
  split <;> simp

/-! ## One pass of the right scan -/

theorem scanRight_zero (w h : Nat) (cy : Int) (sc : Sample) (fc : Rgba) (sx : Int)
    (s : FillState) (up down : Bool) : scanRight w h cy sc fc 0 sx s up down = s := rfl

theorem scanRight_stop (w h : Nat) (cy : Int) (sc : Sample) (fc : Rgba) (n : Nat) (sx : Int)
    (s : FillState) (up down : Bool) (hm : cur w sc s.data sx cy = false) :
    scanRight w h cy sc fc (n + 1) sx s up down = s := by
  unfold cur at hm
  simp [scanRight, hm]

theorem scanRight_go (w h : Nat) (cy : Int) (sc : Sample) (fc : Rgba) (n : Nat) (sx : Int)
    (s : FillState) (up down : Bool) (hm : cur w sc s.data sx cy = true) :
    scanRight w h cy sc fc (n + 1) sx s up down =
      scanRight w h cy sc fc n (sx + 1)
        ⟨setAt s.data (byteIdx w sx cy) fc, markVisited s.visited (cy * (w : Int) + sx),
          (if cy < (h : Int) - 1 ∧ fresh w sc (setAt s.data (byteIdx w sx cy) fc)
              (markVisited s.visited (cy * (w : Int) + sx)) sx (cy + 1) = true ∧ down = false
            then [(sx, cy + 1)] else []) ++
          ((if 0 < cy ∧ fresh w sc (setAt s.data (byteIdx w sx cy) fc)
              (markVisited s.visited (cy * (w : Int) + sx)) sx (cy - 1) = true ∧ up = false
            then [(sx, cy - 1)] else []) ++ s.stack)⟩
        (if 0 < cy then fresh w sc (setAt s.data (byteIdx w sx cy) fc)
              (markVisited s.visited (cy * (w : Int) + sx)) sx (cy - 1) else up)
        (if cy < (h : Int) - 1 then fresh w sc (setAt s.data (byteIdx w sx cy) fc)
              (markVisited s.visited (cy * (w : Int) + sx)) sx (cy + 1) else down) := by
  unfold cur at hm
  rw [scanRight]
  simp only [hm, Bool.not_true, Bool.false_eq_true, if_false, fresh, vis, cur, gt_iff_lt]
  rcases Bool.eq_false_or_eq_true
      (visitedAt (markVisited s.visited (cy * (w : Int) + sx)) ((cy - 1) * (w : Int) + sx))
    with hu | hu <;>
  rcases Bool.eq_false_or_eq_true
      (matchAt (setAt s.data (byteIdx w sx cy) fc) (byteIdx w sx (cy - 1)) sc tol)
    with hmu | hmu <;>
  rcases Bool.eq_false_or_eq_true
      (visitedAt (markVisited s.visited (cy * (w : Int) + sx)) ((cy + 1) * (w : Int) + sx))
    with hd | hd <;>
  rcases Bool.eq_false_or_eq_true
      (matchAt (setAt s.data (byteIdx w sx cy) fc) (byteIdx w sx (cy + 1)) sc tol)
    with hmd | hmd <;>
  by_cases h1 : 0 < cy <;> by_cases h2 : cy < (h : Int) - 1 <;>
    cases up <;> cases down <;> simp [h1, h2, hu, hmu, hd, hmd]

theorem markVisited_mono (v : List Bool) (k : Int) (i : Nat) (hi : v[i]? = some true) :
    (markVisited v k)[i]? = some true := by
  unfold markVisited
  split
  · exact hi
  · rw [List.getElem?_set]
    by_cases h : k.toNat = i
    · have hlt : i < v.length := by
        by_contra hc
        rw [List.getElem?_eq_none (by omega)] at hi
        exact absurd hi (by simp)
      simp [h, hlt]
    · simp [h, hi]

theorem vis_mark_same (w h : Nat) (v : List Bool) (x y : Int) (hlen : v.length = w * h)
    (hb : InB w h x y) : vis w (markVisited v (y * (w : Int) + x)) x y = true := by
  have h1 := lin_bounds w h x y hb
  have h2 : ((v.length : Nat) : Int) = (w : Int) * (h : Int) := by rw [hlen]; push_cast; ring
  unfold vis
  rw [visitedAt_markVisited]
  have : y * (w : Int) + x = y * (w : Int) + x ∧ 0 ≤ y * (w : Int) + x ∧
      y * (w : Int) + x < (v.length : Int) := ⟨rfl, h1.1, by omega⟩
  simp [this]

theorem vis_mark_other (w : Nat) (v : List Bool) (x y x' y' : Int)
    (hx0 : 0 ≤ x) (hxw : x < (w : Int)) (hx0' : 0 ≤ x') (hxw' : x' < (w : Int))
    (hne : ¬ (x' = x ∧ y' = y)) :
    vis w (markVisited v (y * (w : Int) + x)) x' y' = vis w v x' y' := by
  unfold vis
  rw [visitedAt_markVisited]
  have : ¬ (y * (w : Int) + x = y' * (w : Int) + x' ∧ 0 ≤ y * (w : Int) + x ∧
      y * (w : Int) + x < (v.length : Int)) := by
    rintro ⟨h, -, -⟩
    have := lin_inj w x y x' y' hx0 hxw hx0' hxw' h
    exact hne ⟨this.1.symm, this.2.symm⟩
  simp [this]

theorem mem_ite_singleton {α : Type} (c : Prop) [Decidable c] (q q' : α) :
    q' ∈ (if c then [q] else []) ↔ c ∧ q' = q := by
  by_cases hc : c <;> simp [hc]

theorem length_ite_singleton {α : Type} (c : Prop) [Decidable c] (q : α) :
    (if c then [q] else []).length ≤ 1 := by
  by_cases hc : c <;> simp [hc]

theorem scanPost_refl (w h : Nat) (cy : Int) (sc : Sample) (fc : Rgba) (sx : Int)
    (up down : Bool) (s : FillState) (hw : sx ≤ (w : Int))
    (hstop : sx < (w : Int) → cur w sc s.data sx cy = false) :
    ScanPost w h cy sc fc sx up down s s sx [] :=
  { lo := le_refl _
    hi := hw
    span_cur := by intro x h1 h2; omega
    stop := hstop
    span_px := by intro x h1 h2; omega
    frame := by intro x y _ _ _; exact ⟨rfl, rfl⟩
    len_data := rfl
    len_vis := rfl
    mono := fun _ hi => hi
    stack_eq := by simp
    push_len := by simp
    push_ok := by intro q hq; simp at hq
    cover_up := by intro x h1 h2; omega
    cover_down := by intro x h1 h2; omega }

theorem scanRight_post (w h : Nat) (cy : Int) (sc : Sample) (fc : Rgba)
    (hcy0 : 0 ≤ cy) (hcyh : cy < (h : Int)) :
    ∀ (n : Nat) (sx : Int) (s : FillState) (up down : Bool), 0 ≤ sx → sx ≤ (w : Int) →
      n = ((w : Int) - sx).toNat → s.data.length = 4 * w * h → s.visited.length = w * h →
      ∃ e pushes,
        ScanPost w h cy sc fc sx up down s (scanRight w h cy sc fc n sx s up down) e pushes := by
  intro n
  induction n with
  | zero =>
    intro sx s up down _ hw hn _ _
    rw [scanRight_zero]
    exact ⟨sx, [], scanPost_refl w h cy sc fc sx up down s hw (by intro hlt; omega)⟩
  | succ n ih =>
    intro sx s up down h0 hw hn hld hlv
    have hsxw : sx < (w : Int) := by omega
    rcases Bool.eq_false_or_eq_true (cur w sc s.data sx cy) with hm | hm
    · rw [scanRight_go w h cy sc fc n sx s up down hm]
      have hb : InB w h sx cy := ⟨h0, hsxw, hcy0, hcyh⟩
      have Fpx : ∀ x y, 0 ≤ x → x < (w : Int) → ¬ (x = sx ∧ y = cy) →
          pixel (setAt s.data (byteIdx w sx cy) fc) w x y = pixel s.data w x y :=
        fun x y hx0 hxw hne => pixel_setAt_other w s.data sx cy x y fc h0 hsxw hx0 hxw hne
      have Fvis : ∀ x y, 0 ≤ x → x < (w : Int) → ¬ (x = sx ∧ y = cy) →
          vis w (markVisited s.visited (cy * (w : Int) + sx)) x y = vis w s.visited x y :=
        fun x y hx0 hxw hne => vis_mark_other w s.visited sx cy x y h0 hsxw hx0 hxw hne
      have Fcur : ∀ x y, 0 ≤ x → x < (w : Int) → ¬ (x = sx ∧ y = cy) →
          cur w sc (setAt s.data (byteIdx w sx cy) fc) x y = cur w sc s.data x y :=
        fun x y hx0 hxw hne => matchAt_of_pixel_eq w _ _ x y x y sc tol (Fpx x y hx0 hxw hne)
      have Ffresh : ∀ x y, 0 ≤ x → x < (w : Int) → ¬ (x = sx ∧ y = cy) →
          fresh w sc (setAt s.data (byteIdx w sx cy) fc)
            (markVisited s.visited (cy * (w : Int) + sx)) x y = fresh w sc s.data s.visited x y := by
        intro x y hx0 hxw hne
        simp only [fresh, Fvis x y hx0 hxw hne, Fcur x y hx0 hxw hne]
      have Psame := pixel_setAt_same w h s.data sx cy fc hld hb
      have Vsame := vis_mark_same w h s.visited sx cy hlv hb
      have hFu : fresh w sc (setAt s.data (byteIdx w sx cy) fc)
            (markVisited s.visited (cy * (w : Int) + sx)) sx (cy - 1)
            = fresh w sc s.data s.visited sx (cy - 1) :=
        Ffresh sx (cy - 1) h0 hsxw (by omega)
      have hFd : fresh w sc (setAt s.data (byteIdx w sx cy) fc)
            (markVisited s.visited (cy * (w : Int) + sx)) sx (cy + 1)
            = fresh w sc s.data s.visited sx (cy + 1) :=
        Ffresh sx (cy + 1) h0 hsxw (by omega)
      rw [hFu, hFd]
      obtain ⟨e, pushes1, P⟩ := ih (sx + 1)
        ⟨setAt s.data (byteIdx w sx cy) fc, markVisited s.visited (cy * (w : Int) + sx),
          (if cy < (h : Int) - 1 ∧ fresh w sc s.data s.visited sx (cy + 1) = true ∧ down = false
            then [(sx, cy + 1)] else []) ++
          ((if 0 < cy ∧ fresh w sc s.data s.visited sx (cy - 1) = true ∧ up = false
            then [(sx, cy - 1)] else []) ++ s.stack)⟩
        (if 0 < cy then fresh w sc s.data s.visited sx (cy - 1) else up)
        (if cy < (h : Int) - 1 then fresh w sc s.data s.visited sx (cy + 1) else down)
        (by omega) (by omega) (by omega)
        (by simp only [length_setAt]; exact hld) (by simp only [length_markVisited]; exact hlv)
      have hlo := P.lo
      refine ⟨e, pushes1 ++ ((if cy < (h : Int) - 1 ∧ fresh w sc s.data s.visited sx (cy + 1) = true
            ∧ down = false then [(sx, cy + 1)] else []) ++
          (if 0 < cy ∧ fresh w sc s.data s.visited sx (cy - 1) = true ∧ up = false
            then [(sx, cy - 1)] else [])), ?_⟩
      refine
        { lo := by omega
          hi := P.hi
          span_cur := ?_
          stop := ?_
          span_px := ?_
          frame := ?_
          len_data := by rw [P.len_data]; exact length_setAt _ _ _
          len_vis := by rw [P.len_vis]; exact length_markVisited _ _
          mono := fun i hi => P.mono i (markVisited_mono _ _ i hi)
          stack_eq := by rw [P.stack_eq]; simp only [List.append_assoc]
          push_len := ?_
          push_ok := ?_
          cover_up := ?_
          cover_down := ?_ }
      · intro x h1 h2
        by_cases hx : x = sx
        · rw [hx]; exact hm
        · have := P.span_cur x (by omega) h2
          rw [← Fcur x cy (by omega) (by have := P.hi; omega) (by omega)]
          exact this
      · intro hlt
        have := P.stop hlt
        rw [← Fcur e cy (by omega) hlt (by omega)]
        exact this
      · intro x h1 h2
        by_cases hx : x = sx
        · have hf := P.frame sx cy h0 hsxw (by omega)
          rw [hx, hf.1, hf.2]
          exact ⟨Psame, Vsame⟩
        · exact P.span_px x (by omega) h2
      · intro x y hx0 hxw hne
        have hf := P.frame x y hx0 hxw (by omega)
        rw [hf.1, hf.2]
        have hne2 : ¬ (x = sx ∧ y = cy) := by omega
        exact ⟨Fpx x y hx0 hxw hne2, Fvis x y hx0 hxw hne2⟩
      · have h1 := P.push_len
        have h2 := length_ite_singleton (cy < (h : Int) - 1 ∧
          fresh w sc s.data s.visited sx (cy + 1) = true ∧ down = false) (sx, cy + 1)
        have h3 := length_ite_singleton (0 < cy ∧
          fresh w sc s.data s.visited sx (cy - 1) = true ∧ up = false) (sx, cy - 1)
        simp only [List.length_append]
        omega
      · intro q hq
        rw [List.mem_append, List.mem_append, mem_ite_singleton, mem_ite_singleton] at hq
        rcases hq with hq | ⟨⟨hc, hf, _⟩, rfl⟩ | ⟨⟨hc, hf, _⟩, rfl⟩
        · obtain ⟨a1, a2, a3, a4, a5, a6⟩ := P.push_ok q hq
          refine ⟨by omega, a2, a3, a4, a5, ?_⟩
          rw [← Ffresh q.1 q.2 (by omega) (by have := P.hi; omega) (by omega)]
          exact a6
        · exact ⟨le_refl _, by omega, Or.inr rfl, by simp only; omega, by simp only; omega, hf⟩
        · exact ⟨le_refl _, by omega, Or.inl rfl, by simp only; omega, by simp only; omega, hf⟩
      · intro x h1 h2 hc hfx
        have hsxf : ∀ t, sx + 1 ≤ t → t ≤ x →
            (fresh w sc (setAt s.data (byteIdx w sx cy) fc)
              (markVisited s.visited (cy * (w : Int) + sx)) t (cy - 1) = true →
              fresh w sc s.data s.visited t (cy - 1) = true) := by
          intro t ht1 ht2 hft
          rw [← Ffresh t (cy - 1) (by omega) (by have := P.hi; omega) (by omega)]
          exact hft
        have key : fresh w sc s.data s.visited sx (cy - 1) = true →
            (up = true ∧ ∀ t, sx ≤ t → t ≤ sx → fresh w sc s.data s.visited t (cy - 1) = true) ∨
            ((sx, cy - 1) ∈ (if 0 < cy ∧ fresh w sc s.data s.visited sx (cy - 1) = true ∧ up = false
              then [(sx, cy - 1)] else [])) := by
          intro hf
          cases hup : up
          · right
            rw [mem_ite_singleton]
            exact ⟨⟨hc, hf, rfl⟩, rfl⟩
          · left
            refine ⟨rfl, ?_⟩
            intro t ht1 ht2
            have : t = sx := by omega
            rw [this]; exact hf
        by_cases hx : x = sx
        · subst hx
          rcases key hfx with ⟨hu, hall⟩ | hmem
          · exact Or.inl ⟨hu, hall⟩
          · refine Or.inr ⟨x, ?_, le_refl _, ?_⟩
            · exact List.mem_append_right _ (List.mem_append_right _ hmem)
            · intro t ht1 ht2
              have : t = x := by omega
              rw [this]; exact hfx
        · have hfx1 : fresh w sc (setAt s.data (byteIdx w sx cy) fc)
              (markVisited s.visited (cy * (w : Int) + sx)) x (cy - 1) = true := by
            rw [Ffresh x (cy - 1) (by omega) (by have := P.hi; omega) (by omega)]
            exact hfx
          rcases P.cover_up x (by omega) h2 hc hfx1 with ⟨hu1, hall1⟩ | ⟨x', hmem, hle, hall⟩
          · simp only [hc, if_true] at hu1
            rcases key hu1 with ⟨hu, hall0⟩ | hmem
            · refine Or.inl ⟨hu, ?_⟩
              intro t ht1 ht2
              by_cases ht : t = sx
              · rw [ht]; exact hu1
              · exact hsxf t (by omega) ht2 (hall1 t (by omega) ht2)
            · refine Or.inr ⟨sx, ?_, by omega, ?_⟩
              · exact List.mem_append_right _ (List.mem_append_right _ hmem)
              · intro t ht1 ht2
                by_cases ht : t = sx
                · rw [ht]; exact hu1
                · exact hsxf t (by omega) ht2 (hall1 t (by omega) ht2)
          · have hx'lo : sx + 1 ≤ x' := (P.push_ok (x', cy - 1) hmem).1
            refine Or.inr ⟨x', List.mem_append_left _ hmem, hle, ?_⟩
            intro t ht1 ht2
            exact hsxf t (by omega) ht2 (hall t ht1 ht2)
      · intro x h1 h2 hc hfx
        have hsxf : ∀ t, sx + 1 ≤ t → t ≤ x →
            (fresh w sc (setAt s.data (byteIdx w sx cy) fc)
              (markVisited s.visited (cy * (w : Int) + sx)) t (cy + 1) = true →
              fresh w sc s.data s.visited t (cy + 1) = true) := by
          intro t ht1 ht2 hft
          rw [← Ffresh t (cy + 1) (by omega) (by have := P.hi; omega) (by omega)]
          exact hft
        have key : fresh w sc s.data s.visited sx (cy + 1) = true →
            (down = true ∧ ∀ t, sx ≤ t → t ≤ sx → fresh w sc s.data s.visited t (cy + 1) = true) ∨
            ((sx, cy + 1) ∈ (if cy < (h : Int) - 1 ∧ fresh w sc s.data s.visited sx (cy + 1) = true
              ∧ down = false then [(sx, cy + 1)] else [])) := by
          intro hf
          cases hdn : down
          · right
            rw [mem_ite_singleton]
            exact ⟨⟨hc, hf, rfl⟩, rfl⟩
          · left
            refine ⟨rfl, ?_⟩
            intro t ht1 ht2
            have : t = sx := by omega
            rw [this]; exact hf
        by_cases hx : x = sx
        · subst hx
          rcases key hfx with ⟨hu, hall⟩ | hmem
          · exact Or.inl ⟨hu, hall⟩
          · refine Or.inr ⟨x, ?_, le_refl _, ?_⟩
            · exact List.mem_append_right _ (List.mem_append_left _ hmem)
            · intro t ht1 ht2
              have : t = x := by omega
              rw [this]; exact hfx
        · have hfx1 : fresh w sc (setAt s.data (byteIdx w sx cy) fc)
              (markVisited s.visited (cy * (w : Int) + sx)) x (cy + 1) = true := by
            rw [Ffresh x (cy + 1) (by omega) (by have := P.hi; omega) (by omega)]
            exact hfx
          rcases P.cover_down x (by omega) h2 hc hfx1 with ⟨hu1, hall1⟩ | ⟨x', hmem, hle, hall⟩
          · simp only [hc, if_true] at hu1
            rcases key hu1 with ⟨hu, hall0⟩ | hmem
            · refine Or.inl ⟨hu, ?_⟩
              intro t ht1 ht2
              by_cases ht : t = sx
              · rw [ht]; exact hu1
              · exact hsxf t (by omega) ht2 (hall1 t (by omega) ht2)
            · refine Or.inr ⟨sx, ?_, by omega, ?_⟩
              · exact List.mem_append_right _ (List.mem_append_left _ hmem)
              · intro t ht1 ht2
                by_cases ht : t = sx
                · rw [ht]; exact hu1
                · exact hsxf t (by omega) ht2 (hall1 t (by omega) ht2)
          · have hx'lo : sx + 1 ≤ x' := (P.push_ok (x', cy + 1) hmem).1
            refine Or.inr ⟨x', List.mem_append_left _ hmem, hle, ?_⟩
            intro t ht1 ht2
            exact hsxf t (by omega) ht2 (hall t ht1 ht2)
    · rw [scanRight_stop w h cy sc fc n sx s up down hm]
      exact ⟨sx, [], scanPost_refl w h cy sc fc sx up down s hw (fun _ => hm)⟩

/-! ## The left scan and one pop -/

theorem scanLeftFrom_spec (d : List Nat) (w : Nat) (cy : Int) (sc : Sample) :
    ∀ k : Nat, -1 ≤ scanLeftFrom d w cy sc k ∧ scanLeftFrom d w cy sc k ≤ (k : Int) ∧
      (∀ x : Int, scanLeftFrom d w cy sc k < x → x ≤ (k : Int) → cur w sc d x cy = true) ∧
      (0 ≤ scanLeftFrom d w cy sc k → cur w sc d (scanLeftFrom d w cy sc k) cy = false) := by
  intro k
  induction k with
  | zero =>
    rcases Bool.eq_false_or_eq_true (matchAt d (byteIdx w 0 cy) sc tol) with hm | hm
    · simp only [scanLeftFrom, hm, if_true]
      refine ⟨le_refl _, by simp, ?_, by intro hneg; omega⟩
      intro x h1 h2
      have : x = 0 := by simp at h2; omega
      rw [this]; exact hm
    · simp only [scanLeftFrom, hm, Bool.false_eq_true, if_false]
      refine ⟨by omega, by simp, ?_, fun _ => hm⟩
      intro x h1 h2
      simp at h2; omega
  | succ k ih =>
    rcases Bool.eq_false_or_eq_true (matchAt d (byteIdx w ((k : Int) + 1) cy) sc tol) with hm | hm
    · simp only [scanLeftFrom, hm, if_true]
      obtain ⟨a1, a2, a3, a4⟩ := ih
      refine ⟨a1, by push_cast; omega, ?_, a4⟩
      intro x h1 h2
      by_cases hx : x = (k : Int) + 1
      · rw [hx]; exact hm
      · exact a3 x h1 (by push_cast at h2; omega)
    · simp only [scanLeftFrom, hm, Bool.false_eq_true, if_false]
      refine ⟨by omega, by push_cast; omega, ?_, fun _ => hm⟩
      intro x h1 h2
      push_cast at h2; omega

theorem scanLeft_spec (d : List Nat) (w : Nat) (cy : Int) (sc : Sample) (cx : Int)
    (hcx : 0 ≤ cx) :
    0 ≤ scanLeft d w cy sc cx + 1 ∧ scanLeft d w cy sc cx + 1 ≤ cx + 1 ∧
      (∀ x : Int, scanLeft d w cy sc cx + 1 ≤ x → x ≤ cx → cur w sc d x cy = true) ∧
      (0 < scanLeft d w cy sc cx + 1 → cur w sc d (scanLeft d w cy sc cx) cy = false) := by
  have hnot : ¬ cx < 0 := by omega
  simp only [scanLeft, hnot, if_false]
  obtain ⟨a1, a2, a3, a4⟩ := scanLeftFrom_spec d w cy sc cx.toNat
  have hk : ((cx.toNat : Nat) : Int) = cx := Int.toNat_of_nonneg hcx
  rw [hk] at a2 a3
  exact ⟨by omega, by omega, fun x h1 h2 => a3 x (by omega) h2, fun hp => a4 (by omega)⟩

theorem fillStep_post (w h : Nat) (sc : Sample) (fc : Rgba) (s : FillState) (cx cy : Int)
    (rest : List (Int × Int)) (hs : s.stack = (cx, cy) :: rest) (hb : InB w h cx cy)
    (hld : s.data.length = 4 * w * h) (hlv : s.visited.length = w * h) :
    ∃ sx e pushes, 0 ≤ sx ∧ sx ≤ cx + 1 ∧
      (∀ x : Int, sx ≤ x → x ≤ cx → cur w sc s.data x cy = true) ∧
      (0 < sx → cur w sc s.data (sx - 1) cy = false) ∧
      ScanPost w h cy sc fc sx false false ⟨s.data, s.visited, rest⟩
        (fillStep w h sc fc s) e pushes := by
  obtain ⟨hx0, hxw, hy0, hyh⟩ := hb
  obtain ⟨a1, a2, a3, a4⟩ := scanLeft_spec s.data w cy sc cx hx0
  obtain ⟨e, pushes, P⟩ := scanRight_post w h cy sc fc hy0 hyh
    ((w : Int) - (scanLeft s.data w cy sc cx + 1)).toNat (scanLeft s.data w cy sc cx + 1)
    ⟨s.data, s.visited, rest⟩ false false a1 (by omega) rfl hld hlv
  refine ⟨scanLeft s.data w cy sc cx + 1, e, pushes, a1, a2, a3, ?_, ?_⟩
  · intro hp
    have := a4 hp
    rw [show scanLeft s.data w cy sc cx + 1 - 1 = scanLeft s.data w cy sc cx by omega]
    exact this
  · have : fillStep w h sc fc s = scanRight w h cy sc fc
        ((w : Int) - (scanLeft s.data w cy sc cx + 1)).toNat (scanLeft s.data w cy sc cx + 1)
        ⟨s.data, s.visited, rest⟩ false false := by
      simp only [fillStep, hs]
    rw [this]
    exact P

/-! ## Consequences of the invariant -/

theorem reach_matches (w h : Nat) (d0 : List Nat) (sc : Sample) (x0 y0 x y : Int)
    (hr : Reach w h d0 sc x0 y0 x y) : Matches w h d0 sc x y := by
  cases hr with
  | seed hm => exact hm
  | step _ _ hm => exact hm

theorem inv_cur_matches (w h : Nat) (d0 : List Nat) (sc : Sample) (fc : Rgba) (x0 y0 : Int)
    (s : FillState) (I : Inv w h d0 sc fc x0 y0 s) (x y : Int) (hb : InB w h x y)
    (hc : cur w sc s.data x y = true) : Matches w h d0 sc x y := by
  rcases Bool.eq_false_or_eq_true (vis w s.visited x y) with hv | hv
  · exact reach_matches w h d0 sc x0 y0 x y (I.vis_reach x y hb hv)
  · refine ⟨hb, ?_⟩
    rw [← matchAt_of_pixel_eq w s.data d0 x y x y sc tol (I.unvis_px x y hb hv)]
    exact hc

theorem inv_matches_cur (w h : Nat) (d0 : List Nat) (sc : Sample) (fc : Rgba) (x0 y0 : Int)
    (s : FillState) (I : Inv w h d0 sc fc x0 y0 s) (x y : Int)
    (hm : Matches w h d0 sc x y) (hv : vis w s.visited x y = false) :
    cur w sc s.data x y = true := by
  unfold cur
  rw [matchAt_of_pixel_eq w s.data d0 x y x y sc tol (I.unvis_px x y hm.1 hv)]
  exact hm.2

theorem inv_cur_spreads (w h : Nat) (d0 : List Nat) (sc : Sample) (fc : Rgba) (x0 y0 : Int)
    (s : FillState) (I : Inv w h d0 sc fc x0 y0 s) (x x' y : Int) (hb : InB w h x y)
    (hadj : x' = x + 1 ∨ x' = x - 1) (hc : cur w sc s.data x y = true)
    (hm : Matches w h d0 sc x' y) : cur w sc s.data x' y = true := by
  rcases Bool.eq_false_or_eq_true (vis w s.visited x' y) with hv | hv
  · have hmx := inv_cur_matches w h d0 sc fc x0 y0 s I x y hb hc
    have hvx : vis w s.visited x y = true := by
      rcases hadj with h1 | h1
      · subst h1
        rw [I.hclosed x y hmx hm]; exact hv
      · have h2 : x = x' + 1 := by omega
        subst h2
        rw [← I.hclosed x' y hm hmx]; exact hv
    have e1 := I.vis_px x y hb hvx
    have e2 := I.vis_px x' y hm.1 hv
    unfold cur at hc ⊢
    rw [matchAt_of_pixel_eq w s.data s.data x' y x y sc tol (by rw [e1, e2])]
    exact hc
  · exact inv_matches_cur w h d0 sc fc x0 y0 s I x' y hm hv

theorem reach_right (w h : Nat) (d0 : List Nat) (sc : Sample) (x0 y0 c y : Int)
    (hr : Reach w h d0 sc x0 y0 c y) :
    ∀ n : Nat, (∀ t, c ≤ t → t ≤ c + (n : Int) → Matches w h d0 sc t y) →
      Reach w h d0 sc x0 y0 (c + (n : Int)) y := by
  intro n
  induction n with
  | zero => intro _; simpa using hr
  | succ n ih =>
    intro hall
    have h1 := ih (fun t ht1 ht2 => hall t ht1 (by push_cast; omega))
    have h2 := hall (c + ((n + 1 : Nat) : Int)) (by omega) (le_refl _)
    exact Reach.step h1 (Or.inr ⟨rfl, Or.inl (by push_cast; ring)⟩) h2

theorem reach_left (w h : Nat) (d0 : List Nat) (sc : Sample) (x0 y0 c y : Int)
    (hr : Reach w h d0 sc x0 y0 c y) :
    ∀ n : Nat, (∀ t, c - (n : Int) ≤ t → t ≤ c → Matches w h d0 sc t y) →
      Reach w h d0 sc x0 y0 (c - (n : Int)) y := by
  intro n
  induction n with
  | zero => intro _; simpa using hr
  | succ n ih =>
    intro hall
    have h1 := ih (fun t ht1 ht2 => hall t (by push_cast; omega) ht2)
    have h2 := hall (c - ((n + 1 : Nat) : Int)) (le_refl _) (by omega)
    exact Reach.step h1 (Or.inr ⟨rfl, Or.inr (by push_cast; ring)⟩) h2

theorem reach_row (w h : Nat) (d0 : List Nat) (sc : Sample) (x0 y0 c y a b : Int)
    (hr : Reach w h d0 sc x0 y0 c y) (hac : a ≤ c) (hcb : c ≤ b)
    (hall : ∀ t, a ≤ t → t ≤ b → Matches w h d0 sc t y) (x : Int) (hax : a ≤ x) (hxb : x ≤ b) :
    Reach w h d0 sc x0 y0 x y := by
  rcases le_total c x with hcx | hxc
  · have := reach_right w h d0 sc x0 y0 c y hr (x - c).toNat
      (fun t ht1 ht2 => hall t (by omega) (by omega))
    rwa [show c + (((x - c).toNat : Nat) : Int) = x by omega] at this
  · have := reach_left w h d0 sc x0 y0 c y hr (c - x).toNat
      (fun t ht1 ht2 => hall t (by omega) (by omega))
    rwa [show c - (((c - x).toNat : Nat) : Int) = x by omega] at this

theorem inv_vis_row (w h : Nat) (d0 : List Nat) (sc : Sample) (fc : Rgba) (x0 y0 : Int)
    (s : FillState) (I : Inv w h d0 sc fc x0 y0 s) (a y : Int) :
    ∀ n : Nat, (∀ t, a ≤ t → t ≤ a + (n : Int) → Matches w h d0 sc t y) →
      vis w s.visited (a + (n : Int)) y = vis w s.visited a y := by
  intro n
  induction n with
  | zero => intro _; simp
  | succ n ih =>
    intro hall
    have h1 := ih (fun t ht1 ht2 => hall t ht1 (by push_cast; omega))
    have h2 := I.hclosed (a + (n : Int)) y (hall _ (by omega) (by push_cast; omega))
      (hall _ (by omega) (by push_cast; omega))
    rw [show a + ((n + 1 : Nat) : Int) = a + (n : Int) + 1 by push_cast; ring, ← h2, h1]

theorem inv_cur_row (w h : Nat) (d0 : List Nat) (sc : Sample) (fc : Rgba) (x0 y0 : Int)
    (s : FillState) (I : Inv w h d0 sc fc x0 y0 s) (a y : Int)
    (hc : cur w sc s.data a y = true) :
    ∀ n : Nat, (∀ t, a ≤ t → t ≤ a + (n : Int) → Matches w h d0 sc t y) →
      cur w sc s.data (a + (n : Int)) y = true := by
  intro n
  induction n with
  | zero => intro _; simpa using hc
  | succ n ih =>
    intro hall
    have h1 := ih (fun t ht1 ht2 => hall t ht1 (by push_cast; omega))
    have hb := (hall (a + (n : Int)) (by omega) (by push_cast; omega)).1
    have hm := hall (a + ((n + 1 : Nat) : Int)) (by omega) (le_refl _)
    exact inv_cur_spreads w h d0 sc fc x0 y0 s I (a + (n : Int)) (a + ((n + 1 : Nat) : Int)) y hb
      (Or.inl (by push_cast; ring)) h1 hm

/-! ## Counting the unvisited cells -/

theorem count_false_le : ∀ (v v' : List Bool), v.length = v'.length →
    (∀ i : Nat, v[i]? = some true → v'[i]? = some true) →
    v'.count false ≤ v.count false := by
  intro v
  induction v with
  | nil =>
    intro v' hl _
    have : v' = [] := List.length_eq_zero.mp (by simpa using hl.symm)
    simp [this]
  | cons a t ih =>
    intro v' hl hm
    cases v' with
    | nil => simp at hl
    | cons a' t' =>
      have ht := ih t' (by simpa using hl) (fun i hi => by simpa using hm (i + 1) (by simpa using hi))
      have h0 := hm 0
      cases a <;> cases a' <;> simp [List.count_cons] at h0 ⊢ <;> omega

theorem count_false_lt : ∀ (v v' : List Bool), v.length = v'.length →
    (∀ i : Nat, v[i]? = some true → v'[i]? = some true) →
    (∃ j : Nat, v[j]? = some false ∧ v'[j]? = some true) →
    v'.count false < v.count false := by
  intro v
  induction v with
  | nil =>
    intro v' _ _ hj
    obtain ⟨j, hj1, _⟩ := hj
    simp at hj1
  | cons a t ih =>
    intro v' hl hm hj
    cases v' with
    | nil => simp at hl
    | cons a' t' =>
      have hmt : ∀ i : Nat, t[i]? = some true → t'[i]? = some true :=
        fun i hi => by simpa using hm (i + 1) (by simpa using hi)
      have hlt : t.length = t'.length := by simpa using hl
      have h0 := hm 0
      obtain ⟨j, hj1, hj2⟩ := hj
      cases j with
      | zero =>
        have hle := count_false_le t t' hlt hmt
        simp at hj1 hj2
        subst hj1; subst hj2
        simp [List.count_cons]
        omega
      | succ j =>
        have hlt2 := ih t' hlt hmt ⟨j, by simpa using hj1, by simpa using hj2⟩
        cases a <;> cases a' <;> simp [List.count_cons] at h0 ⊢ <;> omega

theorem visitedAt_true (v : List Bool) (k : Int) (hv : visitedAt v k = true) :
    v[k.toNat]? = some true := by
  unfold visitedAt at hv
  split at hv
  · simp at hv
  · rw [List.getD_eq_getElem?_getD] at hv
    cases hg : v[k.toNat]? with
    | none => rw [hg] at hv; simp at hv
    | some b => rw [hg] at hv; simp at hv; rw [hv]

theorem visitedAt_false (v : List Bool) (k : Int) (hv : visitedAt v k = false) (h0 : 0 ≤ k)
    (hl : k < (v.length : Int)) : v[k.toNat]? = some false := by
  unfold visitedAt at hv
  have hk : ¬ k < 0 := by omega
  simp only [hk, if_false, List.getD_eq_getElem?_getD] at hv
  have hlt : k.toNat < v.length := by omega
  rw [List.getElem?_eq_getElem hlt] at hv ⊢
  simp at hv
  rw [hv]

/-! ## One pop preserves the invariant -/

theorem step_facts (w h : Nat) (d0 : List Nat) (sc : Sample) (fc : Rgba) (x0 y0 : Int)
    (s : FillState) (I : Inv w h d0 sc fc x0 y0 s) (cx cy : Int) (rest : List (Int × Int))
    (hs : s.stack = (cx, cy) :: rest) :
    Inv w h d0 sc fc x0 y0 (fillStep w h sc fc s) ∧
    InB w h cx cy ∧
    (fillStep w h sc fc s).visited.length = s.visited.length ∧
    (∀ i : Nat, s.visited[i]? = some true → (fillStep w h sc fc s).visited[i]? = some true) ∧
    (vis w s.visited cx cy = false → vis w (fillStep w h sc fc s).visited cx cy = true) ∧
    ∃ pushes, (fillStep w h sc fc s).stack = pushes ++ rest ∧ pushes.length ≤ 2 * w ∧
      ∀ q ∈ pushes, vis w (fillStep w h sc fc s).visited q.1 q.2 = false := by
  have hrc : Reach w h d0 sc x0 y0 cx cy :=
    I.stack_ok (cx, cy) (by rw [hs]; exact List.mem_cons_self _ _)
  have hmc := reach_matches w h d0 sc x0 y0 cx cy hrc
  have hb := hmc.1
  obtain ⟨sx, e, pushes, hsx0, hsxle, hspanl, hleft, P⟩ :=
    fillStep_post w h sc fc s cx cy rest hs hb I.len_data I.len_vis
  generalize fillStep w h sc fc s = s' at P ⊢
  have Pcur : ∀ x, sx ≤ x → x < e → cur w sc s.data x cy = true := P.span_cur
  have Pstop : e < (w : Int) → cur w sc s.data e cy = false := P.stop
  have Pspan : ∀ x, sx ≤ x → x < e →
      pixel s'.data w x cy = painted fc ∧ vis w s'.visited x cy = true := P.span_px
  have Pframe : ∀ x y, 0 ≤ x → x < (w : Int) → ¬ (y = cy ∧ sx ≤ x ∧ x < e) →
      pixel s'.data w x y = pixel s.data w x y ∧ vis w s'.visited x y = vis w s.visited x y :=
    P.frame
  have Ppush : ∀ q ∈ pushes, sx ≤ q.1 ∧ q.1 < e ∧ (q.2 = cy - 1 ∨ q.2 = cy + 1) ∧
      0 ≤ q.2 ∧ q.2 < (h : Int) ∧ fresh w sc s.data s.visited q.1 q.2 = true := P.push_ok
  have Pstack : s'.stack = pushes ++ rest := P.stack_eq
  have hlo : sx ≤ e := P.lo
  have hhi : e ≤ (w : Int) := P.hi
  obtain ⟨hcx0, hcxw, hcy0, hcyh⟩ := hb
  have K2 : sx < e → cur w sc s.data cx cy = true := by
    intro hne
    rcases Bool.eq_false_or_eq_true (cur w sc s.data cx cy) with hc | hc
    · exact hc
    · exfalso
      have hsxeq : sx = cx + 1 := by
        by_contra hne2
        have := hspanl cx (by omega) (le_refl _)
        rw [this] at hc; exact absurd hc (by simp)
      have hc1 : cur w sc s.data (cx + 1) cy = true := Pcur (cx + 1) (by omega) (by omega)
      have := inv_cur_spreads w h d0 sc fc x0 y0 s I (cx + 1) cx cy
        ⟨by omega, by omega, hcy0, hcyh⟩ (Or.inr (by omega)) hc1 hmc
      rw [this] at hc; exact absurd hc (by simp)
  have K3 : cur w sc s.data cx cy = true → sx ≤ cx ∧ cx < e := by
    intro hc
    have h1 : sx ≤ cx := by
      by_contra hgt
      have hsxeq : sx - 1 = cx := by omega
      have := hleft (by omega)
      rw [hsxeq, hc] at this; exact absurd this (by simp)
    refine ⟨h1, ?_⟩
    by_contra hge
    have h2 := Pstop (by omega)
    have h3 := hspanl e hlo (by omega)
    rw [h3] at h2; exact absurd h2 (by simp)
  have Kin : ∀ x, sx ≤ x → x < e → InB w h x cy :=
    fun x h1 h2 => ⟨by omega, by omega, hcy0, hcyh⟩
  have Kmatch : ∀ x, sx ≤ x → x < e → Matches w h d0 sc x cy :=
    fun x h1 h2 => inv_cur_matches w h d0 sc fc x0 y0 s I x cy (Kin x h1 h2) (Pcur x h1 h2)
  have Kreach : ∀ x, sx ≤ x → x < e → Reach w h d0 sc x0 y0 x cy := by
    intro x h1 h2
    obtain ⟨h3, h4⟩ := K3 (K2 (by omega))
    exact reach_row w h d0 sc x0 y0 cx cy sx (e - 1) hrc h3 (by omega)
      (fun t ht1 ht2 => Kmatch t ht1 (by omega)) x h1 (by omega)
  have K5l : sx < e → Matches w h d0 sc (sx - 1) cy → False := by
    intro hne hm
    have hc := Pcur sx (le_refl _) hne
    have h1 := inv_cur_spreads w h d0 sc fc x0 y0 s I sx (sx - 1) cy (Kin sx (le_refl _) hne)
      (Or.inr rfl) hc hm
    have h2 := hleft (by have := hm.1.1; omega)
    rw [h1] at h2; exact absurd h2 (by simp)
  have K5r : sx < e → Matches w h d0 sc e cy → False := by
    intro hne hm
    have hc := Pcur (e - 1) (by omega) (by omega)
    have h1 := inv_cur_spreads w h d0 sc fc x0 y0 s I (e - 1) e cy (Kin (e - 1) (by omega) (by omega))
      (Or.inl (by omega)) hc hm
    have h2 := Pstop hm.1.2.1
    rw [h1] at h2; exact absurd h2 (by simp)
  have vmono : ∀ x y, 0 ≤ x → x < (w : Int) → vis w s.visited x y = true →
      vis w s'.visited x y = true := by
    intro x y hx0 hxw hv
    by_cases hin : (y = cy ∧ sx ≤ x ∧ x < e)
    · obtain ⟨hy, h1, h2⟩ := hin
      rw [hy]; exact (Pspan x h1 h2).2
    · rw [(Pframe x y hx0 hxw hin).2]; exact hv
  have Kpop : ∀ x, cx ≤ x → (∀ t, cx ≤ t → t ≤ x → Matches w h d0 sc t cy) →
      vis w s'.visited x cy = true := by
    intro x hx hall
    have hxb := (hall x hx (le_refl _)).1
    rcases Bool.eq_false_or_eq_true (cur w sc s.data cx cy) with hc | hc
    · obtain ⟨h3, h4⟩ := K3 hc
      have hxe : x < e := by
        by_contra hge
        have hce : cur w sc s.data e cy = true := by
          have := inv_cur_row w h d0 sc fc x0 y0 s I cx cy hc (e - cx).toNat
            (fun t ht1 ht2 => hall t ht1 (by omega))
          rwa [show cx + (((e - cx).toNat : Nat) : Int) = e by omega] at this
        have h2 := Pstop (by have := hxb.2.1; omega)
        rw [hce] at h2; exact absurd h2 (by simp)
      exact (Pspan x (by omega) hxe).2
    · have hv : vis w s.visited cx cy = true := by
        rcases Bool.eq_false_or_eq_true (vis w s.visited cx cy) with hv | hv
        · exact hv
        · have := inv_matches_cur w h d0 sc fc x0 y0 s I cx cy hmc hv
          rw [this] at hc; exact absurd hc (by simp)
      have := inv_vis_row w h d0 sc fc x0 y0 s I cx cy (x - cx).toNat
        (fun t ht1 ht2 => hall t ht1 (by omega))
      rw [show cx + (((x - cx).toNat : Nat) : Int) = x by omega] at this
      exact vmono x cy hxb.1 hxb.2.1 (by rw [this]; exact hv)
  have Kfresh : ∀ x y, InB w h x y → fresh w sc s.data s.visited x y = true →
      vis w s.visited x y = false ∧ Matches w h d0 sc x y := by
    intro x y hbx hf
    simp only [fresh, Bool.and_eq_true, Bool.not_eq_true'] at hf
    exact ⟨hf.1, inv_cur_matches w h d0 sc fc x0 y0 s I x y hbx hf.2⟩
  refine ⟨?_, ⟨hcx0, hcxw, hcy0, hcyh⟩, P.len_vis, P.mono, ?_, pushes, Pstack, ?_, ?_⟩
  · exact
      { len_data := by rw [P.len_data]; exact I.len_data
        len_vis := by rw [P.len_vis]; exact I.len_vis
        vis_px := by
          intro x y hbx hv
          by_cases hin : (y = cy ∧ sx ≤ x ∧ x < e)
          · obtain ⟨hy, h1, h2⟩ := hin
            rw [hy]; exact (Pspan x h1 h2).1
          · obtain ⟨f1, f2⟩ := Pframe x y hbx.1 hbx.2.1 hin
            rw [f1]; rw [f2] at hv; exact I.vis_px x y hbx hv
        unvis_px := by
          intro x y hbx hv
          by_cases hin : (y = cy ∧ sx ≤ x ∧ x < e)
          · obtain ⟨hy, h1, h2⟩ := hin
            rw [hy, (Pspan x h1 h2).2] at hv; exact absurd hv (by simp)
          · obtain ⟨f1, f2⟩ := Pframe x y hbx.1 hbx.2.1 hin
            rw [f1]; rw [f2] at hv; exact I.unvis_px x y hbx hv
        hclosed := by
          intro x y hm1 hm2
          by_cases hin1 : (y = cy ∧ sx ≤ x ∧ x < e)
          · by_cases hin2 : (y = cy ∧ sx ≤ x + 1 ∧ x + 1 < e)
            · obtain ⟨hy, h1, h2⟩ := hin1
              rw [hy, (Pspan x h1 h2).2, (Pspan (x + 1) hin2.2.1 hin2.2.2).2]
            · exfalso
              obtain ⟨hy, h1, h2⟩ := hin1
              have hxe : x + 1 = e := by omega
              rw [hxe, hy] at hm2
              exact K5r (by omega) hm2
          · by_cases hin2 : (y = cy ∧ sx ≤ x + 1 ∧ x + 1 < e)
            · exfalso
              obtain ⟨hy, h1, h2⟩ := hin2
              have hxe : x = sx - 1 := by omega
              rw [hxe, hy] at hm1
              exact K5l (by omega) hm1
            · rw [(Pframe x y hm1.1.1 hm1.1.2.1 hin1).2,
                (Pframe (x + 1) y hm2.1.1 hm2.1.2.1 hin2).2]
              exact I.hclosed x y hm1 hm2
        stack_ok := by
          intro q hq
          rw [Pstack] at hq
          rcases List.mem_append.mp hq with hq | hq
          · obtain ⟨a1, a2, a3, a4, a5, a6⟩ := Ppush q hq
            have hbq : InB w h q.1 q.2 := ⟨by omega, by omega, a4, a5⟩
            exact Reach.step (Kreach q.1 a1 a2) (Or.inl ⟨rfl, by omega⟩) (Kfresh q.1 q.2 hbq a6).2
          · exact I.stack_ok q (by rw [hs]; exact List.mem_cons_of_mem _ hq)
        vis_reach := by
          intro x y hbx hv
          by_cases hin : (y = cy ∧ sx ≤ x ∧ x < e)
          · obtain ⟨hy, h1, h2⟩ := hin
            rw [hy]; exact Kreach x h1 h2
          · rw [(Pframe x y hbx.1 hbx.2.1 hin).2] at hv
            exact I.vis_reach x y hbx hv
        frontier := by
          intro x y y' hbx hv hy' hm'
          by_cases hin : (y = cy ∧ sx ≤ x ∧ x < e)
          · obtain ⟨hy, h1, h2⟩ := hin
            have hne : ¬ (y' = cy ∧ sx ≤ x ∧ x < e) := by omega
            obtain ⟨_, f2⟩ := Pframe x y' hbx.1 hbx.2.1 hne
            rcases Bool.eq_false_or_eq_true (vis w s.visited x y') with hv0 | hv0
            · left; rw [f2]; exact hv0
            · right
              have hf : fresh w sc s.data s.visited x y' = true := by
                simp only [fresh, hv0, inv_matches_cur w h d0 sc fc x0 y0 s I x y' hm' hv0]
                rfl
              have hy'h := hm'.1.2.2.2
              have hy'0 := hm'.1.2.2.1
              rcases hy' with hy' | hy'
              · have hyy : y' = cy + 1 := by omega
                rw [hyy] at hf ⊢
                rcases P.cover_down x h1 h2 (by omega) hf with ⟨hd, _⟩ | ⟨x', hmem, hle, hall⟩
                · exact absurd hd (by simp)
                · refine ⟨x', ?_, hle, ?_⟩
                  · rw [Pstack]; exact List.mem_append_left _ hmem
                  · intro t ht1 ht2
                    have := (Ppush (x', cy + 1) hmem).1
                    exact (Kfresh t (cy + 1) ⟨by simp only at this; omega, by omega, by omega,
                      by omega⟩ (hall t ht1 ht2)).2
              · have hyy : y' = cy - 1 := by omega
                rw [hyy] at hf ⊢
                rcases P.cover_up x h1 h2 (by omega) hf with ⟨hd, _⟩ | ⟨x', hmem, hle, hall⟩
                · exact absurd hd (by simp)
                · refine ⟨x', ?_, hle, ?_⟩
                  · rw [Pstack]; exact List.mem_append_left _ hmem
                  · intro t ht1 ht2
                    have := (Ppush (x', cy - 1) hmem).1
                    exact (Kfresh t (cy - 1) ⟨by simp only at this; omega, by omega, by omega,
                      by omega⟩ (hall t ht1 ht2)).2
          · rw [(Pframe x y hbx.1 hbx.2.1 hin).2] at hv
            rcases I.frontier x y y' hbx hv hy' hm' with hv' | ⟨x', hmem, hle, hall⟩
            · exact Or.inl (vmono x y' hbx.1 hbx.2.1 hv')
            · rw [hs] at hmem
              rcases List.mem_cons.mp hmem with heq | hmem
              · left
                have e1 : x' = cx := congrArg Prod.fst heq
                have e2 : y' = cy := congrArg Prod.snd heq
                rw [e2]
                rw [e1] at hle
                exact Kpop x hle (fun t ht1 ht2 => by
                  have := hall t (by rw [e1]; exact ht1) ht2
                  rwa [e2] at this)
              · exact Or.inr ⟨x', by rw [Pstack]; exact List.mem_append_right _ hmem, hle, hall⟩
        seed_in := I.seed_in
        seed := by
          rcases I.seed with hv | hmem
          · exact Or.inl (vmono x0 y0 I.seed_in.1 I.seed_in.2.1 hv)
          · rw [hs] at hmem
            rcases List.mem_cons.mp hmem with heq | hmem
            · left
              have e1 : x0 = cx := congrArg Prod.fst heq
              have e2 : y0 = cy := congrArg Prod.snd heq
              rw [e1, e2]
              exact Kpop cx (le_refl _) (fun t ht1 ht2 => by
                have : t = cx := by omega
                rw [this]; exact hmc)
            · exact Or.inr (by rw [Pstack]; exact List.mem_append_right _ hmem) }
  · intro hv
    have hc := inv_matches_cur w h d0 sc fc x0 y0 s I cx cy hmc hv
    obtain ⟨h3, h4⟩ := K3 hc
    exact (Pspan cx h3 h4).2
  · have := P.push_len
    omega
  · intro q hq
    obtain ⟨a1, a2, a3, a4, a5, a6⟩ := Ppush q hq
    have hbq : InB w h q.1 q.2 := ⟨by omega, by omega, a4, a5⟩
    rw [(Pframe q.1 q.2 hbq.1 hbq.2.1 (by omega)).2]
    exact (Kfresh q.1 q.2 hbq a6).1

/-! ## Every pop decreases the measure -/

theorem topStale_le_one (w : Nat) (s : FillState) : topStale w s ≤ 1 := by
  unfold topStale
  split
  · exact le_refl _
  · split <;> omega

theorem potential_step (w h : Nat) (d0 : List Nat) (sc : Sample) (fc : Rgba) (x0 y0 : Int)
    (s : FillState) (I : Inv w h d0 sc fc x0 y0 s) (cx cy : Int) (rest : List (Int × Int))
    (hs : s.stack = (cx, cy) :: rest) :
    potential w (fillStep w h sc fc s) < potential w s := by
  obtain ⟨_, hb, hlen, hmono, hpop, pushes, hstack, hplen, hpvis⟩ :=
    step_facts w h d0 sc fc x0 y0 s I cx cy rest hs
  generalize fillStep w h sc fc s = s' at hlen hmono hpop hstack hpvis ⊢
  have hUle : unvisited s' ≤ unvisited s := count_false_le s.visited s'.visited hlen.symm hmono
  have hS' := topStale_le_one w s'
  have hlen_s : s.stack.length = rest.length + 1 := by rw [hs]; simp
  have hlen_s' : s'.stack.length = pushes.length + rest.length := by rw [hstack]; simp
  unfold potential
  rw [hlen_s, hlen_s']
  rcases Bool.eq_false_or_eq_true (vis w s.visited cx cy) with hv | hv
  · have hS : topStale w s = 1 := by simp [topStale, hs, hv]
    cases pushes with
    | nil =>
      have := Nat.mul_le_mul_left (2 * w)
        (show 2 * unvisited s' + topStale w s' ≤ 2 * unvisited s + topStale w s by omega)
      simp only [List.length_nil]
      omega
    | cons q t =>
      have hS0 : topStale w s' = 0 := by
        simp [topStale, hstack, hpvis q (List.mem_cons_self _ _)]
      have := Nat.mul_le_mul_left (2 * w)
        (show 2 * unvisited s' + topStale w s' + 1 ≤ 2 * unvisited s + topStale w s by omega)
      rw [Nat.mul_add, Nat.mul_one] at this
      omega
  · have hS : topStale w s = 0 := by simp [topStale, hs, hv]
    have hlin := lin_bounds w h cx cy hb
    have hlv : ((s.visited.length : Nat) : Int) = (w : Int) * (h : Int) := by
      rw [I.len_vis]; push_cast; ring
    have hlt : unvisited s' < unvisited s :=
      count_false_lt s.visited s'.visited hlen.symm hmono
        ⟨(cy * (w : Int) + cx).toNat, visitedAt_false _ _ hv hlin.1 (by omega),
          visitedAt_true _ _ (hpop hv)⟩
    have := Nat.mul_le_mul_left (2 * w)
      (show 2 * unvisited s' + topStale w s' + 1 ≤ 2 * unvisited s + topStale w s by omega)
    rw [Nat.mul_add, Nat.mul_one] at this
    omega

theorem fillLoop_spec (w h : Nat) (d0 : List Nat) (sc : Sample) (fc : Rgba) (x0 y0 : Int) :
    ∀ (fuel : Nat) (s : FillState), Inv w h d0 sc fc x0 y0 s → potential w s ≤ fuel →
      ∃ s', fillLoop w h sc fc fuel s = some s' ∧ Inv w h d0 sc fc x0 y0 s' ∧ s'.stack = [] := by
  intro fuel
  induction fuel with
  | zero =>
    intro s I hp
    have hlen : s.stack.length = 0 := by unfold potential at hp; omega
    have hnil : s.stack = [] := List.length_eq_zero.mp hlen
    exact ⟨s, by simp [fillLoop, hnil], I, hnil⟩
  | succ fuel ih =>
    intro s I hp
    cases hs : s.stack with
    | nil => exact ⟨s, by simp [fillLoop, hs], I, hs⟩
    | cons q rest =>
      obtain ⟨cx, cy⟩ := q
      have hstep := potential_step w h d0 sc fc x0 y0 s I cx cy rest hs
      have I' := (step_facts w h d0 sc fc x0 y0 s I cx cy rest hs).1
      obtain ⟨s', h1, h2, h3⟩ := ih (fillStep w h sc fc s) I' (by omega)
      exact ⟨s', by simp [fillLoop, hs, h1], h2, h3⟩

theorem fillStep_iterate (w h : Nat) (d0 : List Nat) (sc : Sample) (fc : Rgba) (x0 y0 : Int) :
    ∀ (fuel : Nat) (s : FillState), Inv w h d0 sc fc x0 y0 s → potential w s ≤ fuel →
      ∃ n, n ≤ fuel ∧ ((fillStep w h sc fc)^[n] s).stack = [] := by
  intro fuel
  induction fuel with
  | zero =>
    intro s _ hp
    have hlen : s.stack.length = 0 := by unfold potential at hp; omega
    exact ⟨0, le_refl _, List.length_eq_zero.mp hlen⟩
  | succ fuel ih =>
    intro s I hp
    cases hs : s.stack with
    | nil => exact ⟨0, Nat.zero_le _, hs⟩
    | cons q rest =>
      obtain ⟨cx, cy⟩ := q
      have hstep := potential_step w h d0 sc fc x0 y0 s I cx cy rest hs
      have I' := (step_facts w h d0 sc fc x0 y0 s I cx cy rest hs).1
      obtain ⟨n, hn, hnil⟩ := ih (fillStep w h sc fc s) I' (by omega)
      exact ⟨n + 1, by omega, by rw [Function.iterate_succ_apply]; exact hnil⟩

/-! ## The state in which the loop is entered -/

theorem vis_replicate (w n : Nat) (x y : Int) : vis w (List.replicate n false) x y = false := by
  unfold vis visitedAt
  split
  · rfl
  · rw [List.getD_eq_getElem?_getD, List.getElem?_replicate]
    split <;> rfl

theorem absLe_self (u t : Nat) : absLe (some u) (some u) t = true := by
  simp [absLe]

theorem readAt_some (d : List Nat) (i : Int) (h0 : 0 ≤ i) (hl : i < (d.length : Int)) :
    ∃ u, readAt d i = some u := by
  unfold readAt
  have hk : ¬ i < 0 := by omega
  have hlt : i.toNat < d.length := by omega
  exact ⟨d[i.toNat], by simp [hk, List.getElem?_eq_getElem hlt]⟩

theorem seed_matches (w h : Nat) (d : List Nat) (x y : Int) (hlen : d.length = 4 * w * h)
    (hb : InB w h x y) : Matches w h d (startColor d w x y) x y := by
  obtain ⟨h0, h3⟩ := byteIdx_range w h d x y hlen hb
  obtain ⟨u0, e0⟩ := readAt_some d (byteIdx w x y) h0 (by omega)
  obtain ⟨u1, e1⟩ := readAt_some d (byteIdx w x y + 1) (by omega) (by omega)
  obtain ⟨u2, e2⟩ := readAt_some d (byteIdx w x y + 2) (by omega) (by omega)
  obtain ⟨u3, e3⟩ := readAt_some d (byteIdx w x y + 3) (by omega) h3
  refine ⟨hb, ?_⟩
  simp [matchAt, startColor, e0, e1, e2, e3, absLe_self]

theorem inv_init (w h : Nat) (d : List Nat) (fc : Rgba) (x y : Int)
    (hlen : d.length = 4 * w * h) (hb : InB w h x y) :
    Inv w h d (startColor d w x y) fc x y (initState d w h x y) :=
  { len_data := hlen
    len_vis := by simp [initState]
    vis_px := by
      intro a b _ hv
      simp only [initState, vis_replicate] at hv
      exact absurd hv (by simp)
    unvis_px := fun _ _ _ _ => rfl
    hclosed := by
      intro a b _ _
      simp only [initState, vis_replicate]
    stack_ok := by
      intro q hq
      simp only [initState, List.mem_singleton] at hq
      rw [hq]
      exact Reach.seed (seed_matches w h d x y hlen hb)
    vis_reach := by
      intro a b _ hv
      simp only [initState, vis_replicate] at hv
      exact absurd hv (by simp)
    frontier := by
      intro a b b' _ hv
      simp only [initState, vis_replicate] at hv
      exact absurd hv (by simp)
    seed_in := hb
    seed := Or.inr (by simp [initState]) }

theorem potential_init (w h : Nat) (d : List Nat) (x y : Int) :
    potential w (initState d w h x y) ≤ fillBound w h := by
  have hS := topStale_le_one w (initState d w h x y)
  have hU : unvisited (initState d w h x y) = w * h := by
    simp [unvisited, initState]
  have := Nat.mul_le_mul_left (2 * w)
    (show 2 * unvisited (initState d w h x y) + topStale w (initState d w h x y)
      ≤ 2 * (w * h) + 1 by omega)
  have hl : (initState d w h x y).stack.length = 1 := by simp [initState]
  unfold potential fillBound
  omega

theorem fill_result (w h : Nat) (d : List Nat) (fc : Rgba) (x y : Int)
    (hlen : d.length = 4 * w * h) (hb : InB w h x y) :
    ∃ s', fillLoop w h (startColor d w x y) fc (fillBound w h) (initState d w h x y) = some s' ∧
      Inv w h d (startColor d w x y) fc x y s' ∧ s'.stack = [] :=
  fillLoop_spec w h d (startColor d w x y) fc x y (fillBound w h) (initState d w h x y)
    (inv_init w h d fc x y hlen hb) (potential_init w h d x y)

theorem final_reach_visited (w h : Nat) (d0 : List Nat) (sc : Sample) (fc : Rgba) (x0 y0 : Int)
    (s : FillState) (I : Inv w h d0 sc fc x0 y0 s) (hnil : s.stack = []) (x y : Int)
    (hr : Reach w h d0 sc x0 y0 x y) : vis w s.visited x y = true := by
  induction hr with
  | seed _ =>
    rcases I.seed with hv | hmem
    · exact hv
    · rw [hnil] at hmem; simp at hmem
  | step hprev hadj hm ih =>
    rename_i a b a' b'
    have hma := reach_matches w h d0 sc x0 y0 a b hprev
    rcases hadj with ⟨hx, hy⟩ | ⟨hy, hx⟩
    · rw [hx] at hm ⊢
      rcases I.frontier a b b' hma.1 ih hy hm with hv | ⟨x', hmem, _, _⟩
      · exact hv
      · rw [hnil] at hmem; simp at hmem
    · rw [hy] at hm ⊢
      rcases hx with hx | hx
      · rw [hx] at hm ⊢
        rw [← I.hclosed a b hma hm]; exact ih
      · have ha : a = a' + 1 := by omega
        rw [ha] at hma ih
        rw [I.hclosed a' b hm hma]; exact ih

/-! ## The click handler as a whole -/

theorem floodFill_skip (w h : Nat) (data : List Nat) (x y : Int) (fc : Rgba)
    (hskip : isWall (startColor data w x y) = true ∨
      sameColour fc (startColor data w x y) = true) :
    floodFill w h data x y fc = some data := by
  unfold floodFill clickOutcome
  rcases hskip with hw | hsame
  · simp [hw]
  · by_cases hw : isWall (startColor data w x y) = true
    · simp [hw]
    · simp [hw, hsame]

theorem floodFill_filled (w h : Nat) (data : List Nat) (x y : Int) (fc : Rgba)
    (hlen : data.length = 4 * w * h) (hb : InB w h x y)
    (hwall : isWall (startColor data w x y) = false)
    (hsame : sameColour fc (startColor data w x y) = false) :
    ∃ s', floodFill w h data x y fc = some s'.data ∧
      Inv w h data (startColor data w x y) fc x y s' ∧ s'.stack = [] := by
  obtain ⟨s', h1, h2, h3⟩ := fill_result w h data fc x y hlen hb
  refine ⟨s', ?_, h2, h3⟩
  unfold floodFill clickOutcome
  simp [hwall, hsame, h1]

theorem floodFill_frame (w h : Nat) (data : List Nat) (x y : Int) (fc : Rgba)
    (hlen : data.length = 4 * w * h) (hb : InB w h x y) (px py : Int) (hp : InB w h px py)
    (hout : ¬ Reach w h data (startColor data w x y) x y px py) :
    ∃ d', floodFill w h data x y fc = some d' ∧ pixel d' w px py = pixel data w px py := by
  rcases Bool.eq_false_or_eq_true (isWall (startColor data w x y)) with hw | hw
  · exact ⟨data, floodFill_skip w h data x y fc (Or.inl hw), rfl⟩
  · rcases Bool.eq_false_or_eq_true (sameColour fc (startColor data w x y)) with hsame | hsame
    · exact ⟨data, floodFill_skip w h data x y fc (Or.inr hsame), rfl⟩
    · obtain ⟨s', h1, I, _⟩ := floodFill_filled w h data x y fc hlen hb hw hsame
      refine ⟨s'.data, h1, ?_⟩
      rcases Bool.eq_false_or_eq_true (vis w s'.visited px py) with hv | hv
      · exact absurd (I.vis_reach px py hp hv) hout
      · exact I.unvis_px px py hp hv

theorem floodFill_paint (w h : Nat) (data : List Nat) (x y : Int) (fc : Rgba)
    (hlen : data.length = 4 * w * h) (hb : InB w h x y)
    (hwall : isWall (startColor data w x y) = false)
    (hsame : sameColour fc (startColor data w x y) = false) :
    ∃ d', floodFill w h data x y fc = some d' ∧ d'.length = data.length ∧
      ∀ px py, Reach w h data (startColor data w x y) x y px py →
        pixel d' w px py = painted fc := by
  obtain ⟨s', h1, I, hnil⟩ := floodFill_filled w h data x y fc hlen hb hwall hsame
  refine ⟨s'.data, h1, by rw [I.len_data, hlen], ?_⟩
  intro px py hr
  have hm := reach_matches w h data _ x y px py hr
  exact I.vis_px px py hm.1 (final_reach_visited w h data _ fc x y s' I hnil px py hr)

theorem painted_of_le (fc : Rgba) (hr : fc.r ≤ 255) (hg : fc.g ≤ 255) (hb : fc.b ≤ 255) :
    painted fc = [some fc.r, some fc.g, some fc.b, some 255] := by
  simp [painted, Nat.min_eq_left hr, Nat.min_eq_left hg, Nat.min_eq_left hb]

/-- C1. After the fill from a seed inside the buffer that is neither a wall nor
already of the fill colour, every pixel of the region (reachable from the seed by
four-adjacent steps through pixels whose original colour matches the seed colour
within 24 on all four channels) holds exactly `(fill.r, fill.g, fill.b, 255)`. -/
theorem fill_paints_region (w h : Nat) (data : List Nat) (x y : Int) (fc : Rgba)
    (hlen : data.length = 4 * w * h) (hseed : InB w h x y)
    (hfc : fc.r ≤ 255 ∧ fc.g ≤ 255 ∧ fc.b ≤ 255)
    (hwall : isWall (startColor data w x y) = false)
    (hsame : sameColour fc (startColor data w x y) = false)
    (px py : Int) (hreach : Reach w h data (startColor data w x y) x y px py) :
    ∃ d', floodFill w h data x y fc = some d' ∧
      pixel d' w px py = [some fc.r, some fc.g, some fc.b, some 255] := by
  obtain ⟨d', h1, _, h2⟩ := floodFill_paint w h data x y fc hlen hseed hwall hsame
  refine ⟨d', h1, ?_⟩
  rw [h2 px py hreach]
  exact painted_of_le fc hfc.1 hfc.2.1 hfc.2.2

theorem fill_paints_region_witness :
    (∃ d', floodFill 4 4 framed4 1 1 red = some d' ∧
      pixel d' 4 2 2 = [some red.r, some red.g, some red.b, some 255]) ∧
    floodFill 4 4 framed4 1 1 red = some framed4Red :=
  ⟨fill_paints_region 4 4 framed4 1 1 red (by decide) (by unfold InB; decide) (by decide)
    (by decide) (by decide) 2 2
    (Reach.step
      (Reach.step (Reach.seed ⟨by unfold InB; decide, by decide⟩)
        (Or.inr ⟨rfl, Or.inl (by decide)⟩) ⟨by unfold InB; decide, by decide⟩)
      (Or.inl ⟨rfl, Or.inl (by decide)⟩) ⟨by unfold InB; decide, by decide⟩),
   by decide⟩

/-- C2. Containment: a pixel of the buffer that is not in the region of the seed
(not reachable from it through pixels matching the seed colour within 24) has
after the fill the four bytes it had before. -/
theorem fill_contained (w h : Nat) (data : List Nat) (x y : Int) (fc : Rgba)
    (hlen : data.length = 4 * w * h) (hseed : InB w h x y) (px py : Int)
    (hp : InB w h px py)
    (hout : ¬ Reach w h data (startColor data w x y) x y px py) :
    ∃ d', floodFill w h data x y fc = some d' ∧ pixel d' w px py = pixel data w px py :=
  floodFill_frame w h data x y fc hlen hseed px py hp hout

theorem split3_region (a b : Int)
    (hr : Reach 3 1 split3 (startColor split3 3 0 0) 0 0 a b) : a = 0 ∧ b = 0 := by
  induction hr with
  | seed _ => exact ⟨rfl, rfl⟩
  | step hprev hadj hm ih =>
    rename_i a0 b0 a1 b1
    exfalso
    obtain ⟨ha, hb⟩ := ih
    obtain ⟨⟨h1, h2, h3, h4⟩, hmatch⟩ := hm
    have hb1 : b1 = 0 := by omega
    have ha1 : a1 = 1 := by
      rcases hadj with ⟨e1, e2⟩ | ⟨e1, e2⟩ <;> omega
    rw [ha1, hb1] at hmatch
    revert hmatch
    decide

theorem fill_contained_witness :
    ∃ d', floodFill 3 1 split3 0 0 red = some d' ∧ pixel d' 3 2 0 = pixel split3 3 2 0 :=
  fill_contained 3 1 split3 0 0 red (by decide) (by unfold InB; decide) 2 0
    (by unfold InB; decide)
    (fun hr => absurd (split3_region 2 0 hr).1 (by decide))

theorem absLe_below40 (v : Option Nat) (r : Nat) (hv : below40 v = true) (hr : 64 ≤ r) :
    absLe v (some r) tol = false := by
  cases v with
  | none => rfl
  | some u =>
    simp only [below40, decide_eq_true_eq] at hv
    simp only [absLe, tol, decide_eq_false_iff_not]
    omega

/-- The one case in which walls are safe: a wall pixel is kept whenever the seed
colour has a red, green or blue value of at least 64 (such a seed is more than
24 away from every wall colour). -/
theorem wall_kept_for_light_seed (w h : Nat) (data : List Nat) (x y : Int) (fc : Rgba)
    (hlen : data.length = 4 * w * h) (hseed : InB w h x y) (px py : Int)
    (hp : InB w h px py) (hwallp : isWall (startColor data w px py) = true)
    (hlight : (∃ r, (startColor data w x y).r = some r ∧ 64 ≤ r) ∨
      (∃ g, (startColor data w x y).g = some g ∧ 64 ≤ g) ∨
      (∃ b, (startColor data w x y).b = some b ∧ 64 ≤ b)) :
    ∃ d', floodFill w h data x y fc = some d' ∧ pixel d' w px py = pixel data w px py := by
  apply floodFill_frame w h data x y fc hlen hseed px py hp
  intro hr
  have hm := (reach_matches w h data _ x y px py hr).2
  simp only [isWall, startColor, Bool.and_eq_true] at hwallp
  obtain ⟨⟨w1, w2⟩, w3⟩ := hwallp
  simp only [matchAt, Bool.and_eq_true] at hm
  obtain ⟨⟨⟨m1, m2⟩, m3⟩, _⟩ := hm
  rcases hlight with ⟨r, e, hr64⟩ | ⟨g, e, hg64⟩ | ⟨b, e, hb64⟩
  · rw [e, absLe_below40 _ r w1 hr64] at m1
    exact absurd m1 (by simp)
  · rw [e, absLe_below40 _ g w2 hg64] at m2
    exact absurd m2 (by simp)
  · rw [e, absLe_below40 _ b w3 hb64] at m3
    exact absurd m3 (by simp)

theorem wall_kept_for_light_seed_witness :
    ∃ d', floodFill 4 4 framed4 1 1 red = some d' ∧ pixel d' 4 0 1 = pixel framed4 4 0 1 :=
  wall_kept_for_light_seed 4 4 framed4 1 1 red (by decide) (by unfold InB; decide) 0 1
    (by unfold InB; decide) (by decide) (Or.inl ⟨255, by decide, by decide⟩)

/-- C3, the code at the failing input: in `greyPair` the pixel `(1, 0)` is a wall
(all of red, green, blue below 40) and the seed `(0, 0)` is not; the two match
within 24, the loop has no wall test, and the fill repaints the wall pixel,
against the comment of line 140 that very dark pixels are walls. -/
theorem wall_repainted :
    isWall (startColor greyPair 2 1 0) = true ∧
    isWall (startColor greyPair 2 0 0) = false ∧
    floodFill 2 1 greyPair 0 0 red = some (redPx ++ redPx) ∧
    pixel (redPx ++ redPx) 2 1 0 ≠ pixel greyPair 2 1 0 := by
  decide

/-- C4, the behaviour of the code on a seed outside the buffer: the seed
`(2, 0)` of the 2x2 white buffer has `x = width`; the handler reads the start
colour at the index of pixel `(0, 1)` and paints all four pixels. -/
theorem seed_outside_repaints :
    ¬ InB 2 2 2 0 ∧ floodFill 2 2 white2x2 2 0 red = some red2x2 ∧ red2x2 ≠ white2x2 := by
  unfold InB
  decide

/-- C5, as the code has it. The handler calls `snapshot()` before it looks at
the seed, so a click on a wall or on a pixel already of the fill colour leaves
the canvas as it was but still pushes it onto `undoStack` (dropping the oldest
entry beyond 30) and empties `redoStack`. -/
theorem noop_click_snapshots (w h : Nat) (a : App) (x y : Int) (fc : Rgba)
    (hnoop : isWall (startColor a.canvas w x y) = true ∨
      sameColour fc (startColor a.canvas w x y) = true) :
    click w h a x y fc = some (snapshot a) := by
  have hc : (snapshot a).canvas = a.canvas := rfl
  unfold click
  rw [hc, floodFill_skip w h a.canvas x y fc hnoop]
  rfl

theorem noop_click_snapshots_witness :
    click 4 4 ⟨framed4, [framed4Red], [framed4Red]⟩ 0 0 red =
      some (snapshot ⟨framed4, [framed4Red], [framed4Red]⟩) :=
  noop_click_snapshots 4 4 ⟨framed4, [framed4Red], [framed4Red]⟩ 0 0 red (Or.inl (by decide))

/-- C5 fails as stated: a click on the wall pixel `(0, 0)` of `framed4` with an
empty history leaves one entry on `undoStack`. -/
theorem noop_click_adds_entry :
    clickOutcome 4 framed4 0 0 red = Outcome.wallSkip ∧
    click 4 4 ⟨framed4, [], []⟩ 0 0 red = some ⟨framed4, [framed4], []⟩ ∧
    click 4 4 ⟨framed4, [], [framed4Red]⟩ 0 0 red = some ⟨framed4, [framed4], []⟩ := by
  decide

/-- C6. If the seed pixel is a wall (red, green and blue all below 40), or its
red, green and blue equal those of the fill colour and its alpha is 255, the
handler writes no pixel: the buffer afterwards is the buffer before. -/
theorem noop_fill_unchanged (w h : Nat) (data : List Nat) (x y : Int) (fc : Rgba)
    (r g b a : Nat) (hpx : pixel data w x y = [some r, some g, some b, some a])
    (hnoop : (r < 40 ∧ g < 40 ∧ b < 40) ∨ (r = fc.r ∧ g = fc.g ∧ b = fc.b ∧ a = 255)) :
    floodFill w h data x y fc = some data := by
  simp only [pixel, List.cons.injEq, and_true] at hpx
  obtain ⟨e0, e1, e2, e3⟩ := hpx
  apply floodFill_skip
  rcases hnoop with ⟨h1, h2, h3⟩ | ⟨h1, h2, h3, h4⟩
  · left
    simp [isWall, startColor, e0, e1, e2, below40, h1, h2, h3]
  · right
    simp [sameColour, startColor, e0, e1, e2, e3, h1, h2, h3, h4]

theorem noop_fill_unchanged_witness :
    floodFill 4 4 framed4 0 0 red = some framed4 ∧
    floodFill 4 4 framed4Red 1 1 red = some framed4Red :=
  ⟨noop_fill_unchanged 4 4 framed4 0 0 red 0 0 0 255 (by decide) (Or.inl (by decide)),
   noop_fill_unchanged 4 4 framed4Red 1 1 red 255 0 0 255 (by decide) (Or.inr (by decide))⟩

theorem startColor_of_pixel (w : Nat) (d : List Nat) (x y : Int) (r g b a : Option Nat)
    (hpx : pixel d w x y = [r, g, b, a]) : startColor d w x y = ⟨r, g, b, a⟩ := by
  simp only [pixel, List.cons.injEq, and_true] at hpx
  obtain ⟨e0, e1, e2, e3⟩ := hpx
  simp [startColor, e0, e1, e2, e3]

/-- C7, as the code has it. Filling twice from the same seed with the same colour
gives the buffer of the first fill. When the first fill changed the buffer, the
seed then holds the fill colour at alpha 255 and the second click writes nothing:
it returns at the wall test if the fill colour has red, green and blue all below
40, and at the same-colour test otherwise. -/
theorem fill_twice (w h : Nat) (data : List Nat) (x y : Int) (fc : Rgba)
    (hlen : data.length = 4 * w * h) (hseed : InB w h x y)
    (hfc : fc.r ≤ 255 ∧ fc.g ≤ 255 ∧ fc.b ≤ 255) :
    ∃ d1, floodFill w h data x y fc = some d1 ∧ floodFill w h d1 x y fc = some d1 ∧
      (d1 ≠ data →
        pixel d1 w x y = [some fc.r, some fc.g, some fc.b, some 255] ∧
        clickOutcome w d1 x y fc =
          if fc.r < 40 ∧ fc.g < 40 ∧ fc.b < 40 then Outcome.wallSkip else Outcome.sameSkip) := by
  rcases Bool.eq_false_or_eq_true (isWall (startColor data w x y)) with hw | hw
  · have h1 := floodFill_skip w h data x y fc (Or.inl hw)
    exact ⟨data, h1, h1, fun hne => absurd rfl hne⟩
  · rcases Bool.eq_false_or_eq_true (sameColour fc (startColor data w x y)) with hsame | hsame
    · have h1 := floodFill_skip w h data x y fc (Or.inr hsame)
      exact ⟨data, h1, h1, fun hne => absurd rfl hne⟩
    · obtain ⟨d1, h1, _, h2⟩ := floodFill_paint w h data x y fc hlen hseed hw hsame
      have hpx : pixel d1 w x y = [some fc.r, some fc.g, some fc.b, some 255] := by
        rw [h2 x y (Reach.seed (seed_matches w h data x y hlen hseed))]
        exact painted_of_le fc hfc.1 hfc.2.1 hfc.2.2
      have hsc := startColor_of_pixel w d1 x y _ _ _ _ hpx
      have hsame1 : sameColour fc (startColor d1 w x y) = true := by
        rw [hsc]; simp [sameColour]
      refine ⟨d1, h1, floodFill_skip w h d1 x y fc (Or.inr hsame1), fun _ => ⟨hpx, ?_⟩⟩
      unfold clickOutcome
      rw [hsc]
      by_cases hdark : fc.r < 40 ∧ fc.g < 40 ∧ fc.b < 40
      · simp [isWall, below40, hdark]
      · have hnw : isWall ⟨some fc.r, some fc.g, some fc.b, some 255⟩ = false := by
          simp only [isWall, below40, Bool.and_eq_false_iff, decide_eq_false_iff_not]
          by_cases h1 : fc.r < 40
          · by_cases h2 : fc.g < 40
            · exact Or.inr (fun h3 => hdark ⟨h1, h2, h3⟩)
            · exact Or.inl (Or.inr h2)
          · exact Or.inl (Or.inl h1)
        simp only [hnw, hdark, if_false, Bool.false_eq_true]
        simp [sameColour]

theorem fill_twice_witness :
    (∃ d1, floodFill 4 4 framed4 1 1 red = some d1 ∧ floodFill 4 4 d1 1 1 red = some d1 ∧
      (d1 ≠ framed4 →
        pixel d1 4 1 1 = [some red.r, some red.g, some red.b, some 255] ∧
        clickOutcome 4 d1 1 1 red =
          if red.r < 40 ∧ red.g < 40 ∧ red.b < 40 then Outcome.wallSkip
          else Outcome.sameSkip)) ∧
    floodFill 4 4 framed4Red 1 1 red = some framed4Red ∧
    clickOutcome 4 framed4Red 1 1 red = Outcome.sameSkip :=
  ⟨fill_twice 4 4 framed4 1 1 red (by decide) (by unfold InB; decide) (by decide),
   by decide, by decide⟩

/-- C7 fails as stated in one clause: after the 1x1 white buffer is filled with
black, the second click returns at the wall test of line 142; the same-colour
test of line 145 is not reached. -/
theorem second_fill_wall_return :
    floodFill 1 1 whitePx 0 0 black = some blackPx ∧ blackPx ≠ whitePx ∧
    clickOutcome 1 blackPx 0 0 black = Outcome.wallSkip ∧
    clickOutcome 1 blackPx 0 0 black ≠ Outcome.sameSkip := by
  decide

/-- C8. Termination: from a seed inside the buffer, for every fill colour, the
loop `while (stack.length)` reaches an empty stack after finitely many pops, at
most `fillBound w h` of them. -/
theorem fill_terminates (w h : Nat) (data : List Nat) (x y : Int) (fc : Rgba)
    (hlen : data.length = 4 * w * h) (hseed : InB w h x y) :
    ∃ n, n ≤ fillBound w h ∧
      ((fillStep w h (startColor data w x y) fc)^[n] (initState data w h x y)).stack = [] :=
  fillStep_iterate w h data (startColor data w x y) fc x y (fillBound w h)
    (initState data w h x y) (inv_init w h data fc x y hlen hseed) (potential_init w h data x y)

theorem fill_terminates_witness :
    ∃ n, n ≤ fillBound 2 2 ∧
      ((fillStep 2 2 (startColor white2x2 2 0 0) nearWhite)^[n]
        (initState white2x2 2 2 0 0)).stack = [] :=
  fill_terminates 2 2 white2x2 0 0 nearWhite (by decide) (by unfold InB; decide)

/-! ## History -/

theorem floodFill_some (w h : Nat) (data : List Nat) (x y : Int) (fc : Rgba)
    (hlen : data.length = 4 * w * h) (hb : InB w h x y) :
    ∃ d, floodFill w h data x y fc = some d := by
  rcases Bool.eq_false_or_eq_true (isWall (startColor data w x y)) with hw | hw
  · exact ⟨data, floodFill_skip w h data x y fc (Or.inl hw)⟩
  · rcases Bool.eq_false_or_eq_true (sameColour fc (startColor data w x y)) with hsame | hsame
    · exact ⟨data, floodFill_skip w h data x y fc (Or.inr hsame)⟩
    · obtain ⟨s', h1, _, _⟩ := floodFill_filled w h data x y fc hlen hb hw hsame
      exact ⟨s'.data, h1⟩

theorem snapshot_last (a : App) : (snapshot a).undoStack.getLast? = some a.canvas := by
  unfold snapshot
  simp only
  split
  · rename_i hlong
    cases hu : a.undoStack with
    | nil => rw [hu] at hlong; simp at hlong
    | cons b t => simp
  · simp

/-- C9. A click fill on the canvas `B` followed by undo gives back `B` byte for
byte as the current buffer, and leaves the filled buffer as the top (and only)
entry of `redoStack`. -/
theorem undo_after_click (w h : Nat) (a : App) (x y : Int) (fc : Rgba)
    (hlen : a.canvas.length = 4 * w * h) (hseed : InB w h x y) :
    ∃ d, floodFill w h a.canvas x y fc = some d ∧
      click w h a x y fc = some ⟨d, (snapshot a).undoStack, []⟩ ∧
      undo ⟨d, (snapshot a).undoStack, []⟩ =
        ⟨a.canvas, (snapshot a).undoStack.dropLast, [d]⟩ := by
  obtain ⟨d, hd⟩ := floodFill_some w h a.canvas x y fc hlen hseed
  refine ⟨d, hd, ?_, ?_⟩
  · have hc : (snapshot a).canvas = a.canvas := rfl
    unfold click
    rw [hc, hd]
    rfl
  · unfold undo
    simp only [snapshot_last a, List.nil_append]

theorem undo_after_click_witness :
    ∃ d, floodFill 4 4 framed4 1 1 red = some d ∧
      click 4 4 ⟨framed4, [], []⟩ 1 1 red =
        some ⟨d, (snapshot ⟨framed4, [], []⟩).undoStack, []⟩ ∧
      undo ⟨d, (snapshot ⟨framed4, [], []⟩).undoStack, []⟩ =
        ⟨framed4, (snapshot ⟨framed4, [], []⟩).undoStack.dropLast, [d]⟩ :=
  undo_after_click 4 4 ⟨framed4, [], []⟩ 1 1 red (by decide) (by unfold InB; decide)

/-- When every image has loaded before the next handler runs, redo undoes undo
and undo undoes redo on the canvas and both stacks. -/
theorem redo_undo_roundtrip (a : App) :
    (a.undoStack ≠ [] → redo (undo a) = a) ∧ (a.redoStack ≠ [] → undo (redo a) = a) := by
  obtain ⟨c, u, r⟩ := a
  constructor
  · intro hne
    simp only at hne
    cases hl : u.getLast? with
    | none => exact absurd (List.getLast?_eq_none_iff.mp hl) hne
    | some prev =>
      have hd : u.dropLast ++ [prev] = u := List.dropLast_append_getLast? prev (by rw [hl]; rfl)
      simp [undo, redo, hl, hd]
  · intro hne
    simp only at hne
    cases hl : r.getLast? with
    | none => exact absurd (List.getLast?_eq_none_iff.mp hl) hne
    | some next =>
      have hd : r.dropLast ++ [next] = r := List.dropLast_append_getLast? next (by rw [hl]; rfl)
      simp [undo, redo, hl, hd]

theorem redo_undo_roundtrip_witness :
    redo (undo ⟨framed4Red, [framed4], []⟩) = ⟨framed4Red, [framed4], []⟩ ∧
    undo (redo ⟨framed4, [], [framed4Red]⟩) = ⟨framed4, [], [framed4Red]⟩ :=
  ⟨(redo_undo_roundtrip ⟨framed4Red, [framed4], []⟩).1 (by decide),
   (redo_undo_roundtrip ⟨framed4, [], [framed4Red]⟩).2 (by decide)⟩

/-! ## The history stacks -/

theorem snapshot_undo_length (a : App) (h : a.undoStack.length ≤ 30) :
    (snapshot a).undoStack.length ≤ 30 := by
  unfold snapshot
  simp only
  split
  · simp only [List.length_tail, List.length_append, List.length_singleton]
    omega
  · rename_i hshort
    omega

theorem undo_total (a : App) :
    (undo a).undoStack.length + (undo a).redoStack.length =
      a.undoStack.length + a.redoStack.length := by
  unfold undo
  cases hl : a.undoStack.getLast? with
  | none => rfl
  | some prev =>
    have hne : a.undoStack ≠ [] := by
      intro hnil
      rw [hnil] at hl
      simp at hl
    have hpos : 0 < a.undoStack.length := List.length_pos.mpr hne
    simp only [List.length_dropLast, List.length_append, List.length_singleton]
    omega

theorem redo_total (a : App) :
    (redo a).undoStack.length + (redo a).redoStack.length =
      a.undoStack.length + a.redoStack.length := by
  unfold redo
  cases hl : a.redoStack.getLast? with
  | none => rfl
  | some next =>
    have hne : a.redoStack ≠ [] := by
      intro hnil
      rw [hnil] at hl
      simp at hl
    have hpos : 0 < a.redoStack.length := List.length_pos.mpr hne
    simp only [List.length_dropLast, List.length_append, List.length_singleton]
    omega

theorem applyOp_total (a : App) (op : HistOp)
    (h : a.undoStack.length + a.redoStack.length ≤ 30) :
    (applyOp a op).undoStack.length + (applyOp a op).redoStack.length ≤ 30 := by
  cases op with
  | draw c =>
    have h1 := snapshot_undo_length a (by omega)
    have h2 : (snapshot a).redoStack = [] := rfl
    simp only [applyOp, h2, List.length_nil]
    omega
  | undo => simp only [applyOp, undo_total]; exact h
  | redo => simp only [applyOp, redo_total]; exact h

theorem runOps_total (ops : List HistOp) : ∀ a : App,
    a.undoStack.length + a.redoStack.length ≤ 30 →
    (runOps a ops).undoStack.length + (runOps a ops).redoStack.length ≤ 30 := by
  induction ops with
  | nil => intro a h; exact h
  | cons op ops ih =>
    intro a h
    exact ih (applyOp a op) (applyOp_total a op h)

/-- C11. History cap: in every state reached from the empty history by any
sequence of clicks or resets (each calling `snapshot()`), undos and redos,
`undoStack` holds at most 30 entries, also after a redo, whose push has no
eviction step. -/
theorem undo_stack_capped (c : List Nat) (ops : List HistOp) :
    (runOps ⟨c, [], []⟩ ops).undoStack.length ≤ 30 := by
  have := runOps_total ops ⟨c, [], []⟩ (by simp)
  omega

theorem snapshot_undo_eq (a : App) (h : a.undoStack.length ≤ 30) :
    (snapshot a).undoStack =
      (a.undoStack ++ [a.canvas]).drop ((a.undoStack ++ [a.canvas]).length - 30) := by
  unfold snapshot
  simp only
  split
  · rename_i hlong
    have : (a.undoStack ++ [a.canvas]).length - 30 = 1 := by
      simp only [List.length_append, List.length_singleton] at hlong ⊢
      omega
    rw [this, List.drop_one]
  · rename_i hshort
    have : (a.undoStack ++ [a.canvas]).length - 30 = 0 := by omega
    rw [this, List.drop_zero]

theorem snapshotEach_undo (bs : List (List Nat)) : ∀ a : App, a.undoStack.length ≤ 30 →
    (snapshotEach a bs).undoStack =
      (a.undoStack ++ bs).drop ((a.undoStack ++ bs).length - 30) := by
  induction bs with
  | nil =>
    intro a h
    have : (a.undoStack ++ []).length - 30 = 0 := by simp; omega
    rw [this]
    simp [snapshotEach]
  | cons b bs ih =>
    intro a h
    have h1 := snapshot_undo_length ⟨b, a.undoStack, a.redoStack⟩ h
    have h2 := snapshot_undo_eq ⟨b, a.undoStack, a.redoStack⟩ h
    simp only at h2
    rw [snapshotEach, ih _ h1, h2]
    have hk : (a.undoStack ++ [b]).length - 30 ≤ (a.undoStack ++ [b]).length := Nat.sub_le _ _
    rw [← List.drop_append_of_le_length hk, List.drop_drop]
    have e1 : a.undoStack ++ [b] ++ bs = a.undoStack ++ b :: bs := by simp
    rw [e1]
    congr 1
    have hl1 : (a.undoStack ++ [b]).length = a.undoStack.length + 1 := by simp
    have hl3 : (a.undoStack ++ b :: bs).length = a.undoStack.length + (bs.length + 1) := by simp
    rw [List.length_drop, hl3, hl1]
    omega

/-- C12. Eviction is oldest-first: after `snapshot()` has been called for the
buffers `B1 .. Bn` in turn, starting from an empty history, `undoStack` is
exactly the last `min n 30` of them in order, the most recent last. -/
theorem snapshots_keep_last_thirty (c : List Nat) (bs : List (List Nat)) :
    (snapshotEach ⟨c, [], []⟩ bs).undoStack = bs.drop (bs.length - 30) ∧
    (snapshotEach ⟨c, [], []⟩ bs).undoStack.length = min bs.length 30 := by
  have h := snapshotEach_undo bs ⟨c, [], []⟩ (by simp)
  simp only [List.nil_append] at h
  refine ⟨h, ?_⟩
  rw [h, List.length_drop]
  omega

set_option maxRecDepth 100000 in
theorem snapshots_keep_last_thirty_witness :
    (snapshotEach ⟨[], [], []⟩ buffers35).undoStack = buffers35.drop 5 ∧
    (snapshotEach ⟨[], [], []⟩ buffers35).undoStack.length = 30 ∧
    (∀ i, i < 5 → [i] ∈ buffers35 ∧ [i] ∉ (snapshotEach ⟨[], [], []⟩ buffers35).undoStack) := by
  have h := snapshots_keep_last_thirty [] buffers35
  refine ⟨?_, ?_, ?_⟩
  · rw [h.1]; rfl
  · rw [h.2]; rfl
  · decide

/-- C14. Undo with an empty `undoStack` and redo with an empty `redoStack`
leave the canvas and both stacks as they were. -/
theorem empty_history_noop (a : App) :
    (a.undoStack = [] → undo a = a) ∧ (a.redoStack = [] → redo a = a) := by
  constructor
  · intro h
    simp [undo, h]
  · intro h
    simp [redo, h]

theorem empty_history_noop_witness :
    undo ⟨framed4, [], [framed4Red]⟩ = ⟨framed4, [], [framed4Red]⟩ ∧
    redo ⟨framed4, [framed4Red], []⟩ = ⟨framed4, [framed4Red], []⟩ :=
  ⟨(empty_history_noop ⟨framed4, [], [framed4Red]⟩).1 rfl,
   (empty_history_noop ⟨framed4, [framed4Red], []⟩).2 rfl⟩

/-- C20. Total history is bounded: in every state reached from the empty
history by any sequence of clicks or resets, undos and redos, the two stacks
together hold at most 30 entries, and so does `redoStack` alone. -/
theorem history_total_bounded (c : List Nat) (ops : List HistOp) :
    (runOps ⟨c, [], []⟩ ops).undoStack.length + (runOps ⟨c, [], []⟩ ops).redoStack.length ≤ 30 ∧
    (runOps ⟨c, [], []⟩ ops).redoStack.length ≤ 30 := by
  have := runOps_total ops ⟨c, [], []⟩ (by simp)
  exact ⟨this, by omega⟩

/-! ## Parsing a hex colour -/

theorem hexDigit_facts (c d : Nat) (h : hexDigitVal c = some d) :
    d < 16 ∧ isJsSpace c = false ∧ c ≠ 43 ∧ c ≠ 45 ∧ c ≠ 120 ∧ c ≠ 88 := by
  unfold hexDigitVal at h
  have hrange : (48 ≤ c ∧ c ≤ 57 ∧ d = c - 48) ∨ (97 ≤ c ∧ c ≤ 102 ∧ d = c - 87) ∨
      (65 ≤ c ∧ c ≤ 70 ∧ d = c - 55) := by
    split at h
    · rename_i h1
      simp only [Option.some.injEq] at h
      exact Or.inl ⟨h1.1, h1.2, h.symm⟩
    · split at h
      · rename_i h2
        simp only [Option.some.injEq] at h
        exact Or.inr (Or.inl ⟨h2.1, h2.2, h.symm⟩)
      · split at h
        · rename_i h3
          simp only [Option.some.injEq] at h
          exact Or.inr (Or.inr ⟨h3.1, h3.2, h.symm⟩)
        · exact absurd h (by simp)
  refine ⟨by omega, ?_, by omega, by omega, by omega, by omega⟩
  simp only [isJsSpace, Bool.or_eq_false_iff, Bool.and_eq_false_iff, decide_eq_false_iff_not]
  omega

theorem parseIntHex_six (c1 c2 c3 c4 c5 c6 d1 d2 d3 d4 d5 d6 : Nat)
    (h1 : hexDigitVal c1 = some d1) (h2 : hexDigitVal c2 = some d2)
    (h3 : hexDigitVal c3 = some d3) (h4 : hexDigitVal c4 = some d4)
    (h5 : hexDigitVal c5 = some d5) (h6 : hexDigitVal c6 = some d6) :
    parseIntHex [c1, c2, c3, c4, c5, c6] =
      some (((((((d1 * 16 + d2) * 16 + d3) * 16 + d4) * 16 + d5) * 16 + d6 : Nat)) : Int) := by
  obtain ⟨b1, s1, p1, m1, _, _⟩ := hexDigit_facts c1 d1 h1
  obtain ⟨b2, _, _, _, x2, y2⟩ := hexDigit_facts c2 d2 h2
  obtain ⟨b3, _⟩ := hexDigit_facts c3 d3 h3
  obtain ⟨b4, _⟩ := hexDigit_facts c4 d4 h4
  obtain ⟨b5, _⟩ := hexDigit_facts c5 d5 h5
  obtain ⟨b6, _⟩ := hexDigit_facts c6 d6 h6
  have hv : hexValue [d1, d2, d3, d4, d5, d6] =
      ((((d1 * 16 + d2) * 16 + d3) * 16 + d4) * 16 + d5) * 16 + d6 := by
    simp [hexValue]
  have hlt : ((((d1 * 16 + d2) * 16 + d3) * 16 + d4) * 16 + d5) * 16 + d6 < 2 ^ 53 := by
    have : (2 : Nat) ^ 53 = 9007199254740992 := by norm_num
    omega
  unfold parseIntHex
  simp only [List.dropWhile, s1, List.head?, Option.some.injEq, p1, m1, or_self, if_false,
    decide_False, List.take, List.cons.injEq, x2, y2, and_false, false_and, leadingHexDigits,
    h1, h2, h3, h4, h5, h6, hv, toNumber, hlt, if_true, Option.map, Bool.false_eq_true]
  rfl

theorem shiftMask_ofNat (m k : Nat) : shiftMask (m : Int) k = (m / 2 ^ k) % 256 := by
  unfold shiftMask
  rw [Int.shiftRight_eq_div_pow]
  have h1 : ((m : Int) / ((2 ^ k : Nat) : Int)) = ((m / 2 ^ k : Nat) : Int) := by
    push_cast; rfl
  rw [h1]
  omega

theorem hexToRgba_six (c1 c2 c3 c4 c5 c6 d1 d2 d3 d4 d5 d6 : Nat)
    (h1 : hexDigitVal c1 = some d1) (h2 : hexDigitVal c2 = some d2)
    (h3 : hexDigitVal c3 = some d3) (h4 : hexDigitVal c4 = some d4)
    (h5 : hexDigitVal c5 = some d5) (h6 : hexDigitVal c6 = some d6)
    (full : List Nat) (hfull : full = [c1, c2, c3, c4, c5, c6]) :
    (⟨shiftMask (toInt32 (parseIntHex full)) 16, shiftMask (toInt32 (parseIntHex full)) 8,
      shiftMask (toInt32 (parseIntHex full)) 0, 255⟩ : Rgba) =
      ⟨d1 * 16 + d2, d3 * 16 + d4, d5 * 16 + d6, 255⟩ := by
  obtain ⟨b1, _⟩ := hexDigit_facts c1 d1 h1
  obtain ⟨b2, _⟩ := hexDigit_facts c2 d2 h2
  obtain ⟨b3, _⟩ := hexDigit_facts c3 d3 h3
  obtain ⟨b4, _⟩ := hexDigit_facts c4 d4 h4
  obtain ⟨b5, _⟩ := hexDigit_facts c5 d5 h5
  obtain ⟨b6, _⟩ := hexDigit_facts c6 d6 h6
  rw [hfull, parseIntHex_six c1 c2 c3 c4 c5 c6 d1 d2 d3 d4 d5 d6 h1 h2 h3 h4 h5 h6]
  have h32 : toInt32 (some (((((((d1 * 16 + d2) * 16 + d3) * 16 + d4) * 16 + d5) * 16 + d6 : Nat))
      : Int)) = (((((((d1 * 16 + d2) * 16 + d3) * 16 + d4) * 16 + d5) * 16 + d6 : Nat)) : Int) := by
    simp only [toInt32]
    omega
  rw [h32, shiftMask_ofNat, shiftMask_ofNat, shiftMask_ofNat]
  have e16 : (2 : Nat) ^ 16 = 65536 := by norm_num
  have e8 : (2 : Nat) ^ 8 = 256 := by norm_num
  have e0 : (2 : Nat) ^ 0 = 1 := by norm_num
  rw [e16, e8, e0]
  simp only [Rgba.mk.injEq, and_true]
  refine ⟨?_, ?_, ?_⟩ <;> omega

/-- C15. For every string `'#'` followed by six hex digits (either letter
case), `hexToRgba` returns `[r, g, b, 255]`, where `r`, `g`, `b` are the values
of the three digit pairs. -/
theorem hexToRgba_six_digits (c1 c2 c3 c4 c5 c6 d1 d2 d3 d4 d5 d6 : Nat)
    (h1 : hexDigitVal c1 = some d1) (h2 : hexDigitVal c2 = some d2)
    (h3 : hexDigitVal c3 = some d3) (h4 : hexDigitVal c4 = some d4)
    (h5 : hexDigitVal c5 = some d5) (h6 : hexDigitVal c6 = some d6) :
    hexToRgba [35, c1, c2, c3, c4, c5, c6] =
      ⟨16 * d1 + d2, 16 * d3 + d4, 16 * d5 + d6, 255⟩ := by
  have h := hexToRgba_six c1 c2 c3 c4 c5 c6 d1 d2 d3 d4 d5 d6 h1 h2 h3 h4 h5 h6
    [c1, c2, c3, c4, c5, c6] rfl
  have hv : hexToRgba [35, c1, c2, c3, c4, c5, c6] =
      ⟨shiftMask (toInt32 (parseIntHex [c1, c2, c3, c4, c5, c6])) 16,
       shiftMask (toInt32 (parseIntHex [c1, c2, c3, c4, c5, c6])) 8,
       shiftMask (toInt32 (parseIntHex [c1, c2, c3, c4, c5, c6])) 0, 255⟩ := by
    simp [hexToRgba]
  rw [hv, h]
  simp only [Rgba.mk.injEq, and_true]
  refine ⟨?_, ?_, ?_⟩ <;> omega

set_option maxRecDepth 100000 in
theorem hexToRgba_six_digits_witness :
    codeUnits "#ff1f1f" = [35, 102, 102, 49, 102, 49, 102] ∧
    codeUnits "#FF1F1F" = [35, 70, 70, 49, 70, 49, 70] ∧
    hexToRgba [35, 102, 102, 49, 102, 49, 102] = ⟨16 * 15 + 15, 16 * 1 + 15, 16 * 1 + 15, 255⟩ ∧
    hexToRgba [35, 70, 70, 49, 70, 49, 70] = ⟨16 * 15 + 15, 16 * 1 + 15, 16 * 1 + 15, 255⟩ :=
  ⟨by decide, by decide,
   hexToRgba_six_digits 102 102 49 102 49 102 15 15 1 15 1 15 (by decide) (by decide) (by decide)
     (by decide) (by decide) (by decide),
   hexToRgba_six_digits 70 70 49 70 49 70 15 15 1 15 1 15 (by decide) (by decide) (by decide)
     (by decide) (by decide) (by decide)⟩

/-- C16. For every three hex digits `x`, `y`, `z`, `hexToRgba('#xyz')` equals
`hexToRgba('#xxyyzz')` and is `[17 x, 17 y, 17 z, 255]`: a three-digit colour is
expanded by doubling each digit. -/
theorem hexToRgba_three_digits (cx cy cz dx dy dz : Nat)
    (hx : hexDigitVal cx = some dx) (hy : hexDigitVal cy = some dy)
    (hz : hexDigitVal cz = some dz) :
    hexToRgba [35, cx, cy, cz] = hexToRgba [35, cx, cx, cy, cy, cz, cz] ∧
    hexToRgba [35, cx, cy, cz] = ⟨17 * dx, 17 * dy, 17 * dz, 255⟩ := by
  have h := hexToRgba_six cx cx cy cy cz cz dx dx dy dy dz dz hx hx hy hy hz hz
    [cx, cx, cy, cy, cz, cz] rfl
  have h3 : hexToRgba [35, cx, cy, cz] =
      ⟨shiftMask (toInt32 (parseIntHex [cx, cx, cy, cy, cz, cz])) 16,
       shiftMask (toInt32 (parseIntHex [cx, cx, cy, cy, cz, cz])) 8,
       shiftMask (toInt32 (parseIntHex [cx, cx, cy, cy, cz, cz])) 0, 255⟩ := by
    simp [hexToRgba, doubleEach]
  have h6 : hexToRgba [35, cx, cx, cy, cy, cz, cz] =
      ⟨shiftMask (toInt32 (parseIntHex [cx, cx, cy, cy, cz, cz])) 16,
       shiftMask (toInt32 (parseIntHex [cx, cx, cy, cy, cz, cz])) 8,
       shiftMask (toInt32 (parseIntHex [cx, cx, cy, cy, cz, cz])) 0, 255⟩ := by
    simp [hexToRgba]
  refine ⟨by rw [h3, h6], ?_⟩
  rw [h3, h]
  simp only [Rgba.mk.injEq, and_true]
  refine ⟨?_, ?_, ?_⟩ <;> omega

set_option maxRecDepth 100000 in
theorem hexToRgba_three_digits_witness :
    codeUnits "#f0a" = [35, 102, 48, 97] ∧
    hexToRgba [35, 102, 48, 97] = hexToRgba [35, 102, 102, 48, 48, 97, 97] ∧
    hexToRgba [35, 102, 48, 97] = ⟨17 * 15, 17 * 0, 17 * 10, 255⟩ :=
  ⟨by decide, hexToRgba_three_digits 102 48 97 15 0 10 (by decide) (by decide) (by decide)⟩

theorem hexToRgba_channels_le (hex : List Nat) :
    (hexToRgba hex).r ≤ 255 ∧ (hexToRgba hex).g ≤ 255 ∧ (hexToRgba hex).b ≤ 255 := by
  simp only [hexToRgba, shiftMask]
  refine ⟨?_, ?_, ?_⟩ <;> omega

/-- C13. After `snapshot()` the redo stack is empty, and so it is after every
click fill, whatever the history was before (for instance right after an undo). -/
theorem redo_cleared (w h : Nat) (a : App) (x y : Int) (fc : Rgba)
    (hlen : a.canvas.length = 4 * w * h) (hseed : InB w h x y) :
    (snapshot a).redoStack = [] ∧
    ∃ a1, click w h a x y fc = some a1 ∧ a1.redoStack = [] := by
  refine ⟨rfl, ?_⟩
  obtain ⟨d, hd⟩ := floodFill_some w h a.canvas x y fc hlen hseed
  have hc : (snapshot a).canvas = a.canvas := rfl
  refine ⟨⟨d, (snapshot a).undoStack, (snapshot a).redoStack⟩, ?_, rfl⟩
  unfold click
  rw [hc, hd]
  rfl

theorem redo_cleared_witness :
    (undo ⟨framed4Red, [framed4], []⟩).redoStack = [framed4Red] ∧
    ((snapshot (undo ⟨framed4Red, [framed4], []⟩)).redoStack = [] ∧
      ∃ a1, click 4 4 (undo ⟨framed4Red, [framed4], []⟩) 1 1 red = some a1 ∧
        a1.redoStack = []) :=
  ⟨by decide, redo_cleared 4 4 (undo ⟨framed4Red, [framed4], []⟩) 1 1 red (by decide)
    (by unfold InB; decide)⟩

/-- C19. The same-colour skip is exact: from a seed inside the buffer that is
not a wall and whose four values differ from `(fill.r, fill.g, fill.b, 255)` in
at least one channel, the fill is not skipped and the seed pixel afterwards
holds exactly `(fill.r, fill.g, fill.b, 255)`. No tolerance enters: the seeds
covered include every one whose colour is within 24 of the fill colour on all
channels without being equal to it. -/
theorem near_colour_is_filled (w h : Nat) (data : List Nat) (x y : Int) (fc : Rgba)
    (hlen : data.length = 4 * w * h) (hseed : InB w h x y)
    (hfc : fc.r ≤ 255 ∧ fc.g ≤ 255 ∧ fc.b ≤ 255)
    (r g b a : Nat) (hpx : pixel data w x y = [some r, some g, some b, some a])
    (hwall : ¬ (r < 40 ∧ g < 40 ∧ b < 40))
    (hdiff : r ≠ fc.r ∨ g ≠ fc.g ∨ b ≠ fc.b ∨ a ≠ 255) :
    clickOutcome w data x y fc = Outcome.filled ∧
    ∃ d', floodFill w h data x y fc = some d' ∧
      pixel d' w x y = [some fc.r, some fc.g, some fc.b, some 255] := by
  have hsc := startColor_of_pixel w data x y _ _ _ _ hpx
  have hw : isWall (startColor data w x y) = false := by
    rw [hsc]
    simp only [isWall, below40, Bool.and_eq_false_iff, decide_eq_false_iff_not]
    by_cases h1 : r < 40
    · by_cases h2 : g < 40
      · exact Or.inr (fun h3 => hwall ⟨h1, h2, h3⟩)
      · exact Or.inl (Or.inr h2)
    · exact Or.inl (Or.inl h1)
  have hs : sameColour fc (startColor data w x y) = false := by
    rw [hsc]
    simp only [sameColour, Option.some.injEq, Bool.and_eq_false_iff, decide_eq_false_iff_not]
    rcases hdiff with h1 | h1 | h1 | h1
    · exact Or.inl (Or.inl (Or.inl (fun e => h1 e.symm)))
    · exact Or.inl (Or.inl (Or.inr (fun e => h1 e.symm)))
    · exact Or.inl (Or.inr (fun e => h1 e.symm))
    · exact Or.inr h1
  refine ⟨by simp [clickOutcome, hw, hs], ?_⟩
  obtain ⟨d', h1, _, h2⟩ := floodFill_paint w h data x y fc hlen hseed hw hs
  refine ⟨d', h1, ?_⟩
  rw [h2 x y (Reach.seed (seed_matches w h data x y hlen hseed))]
  exact painted_of_le fc hfc.1 hfc.2.1 hfc.2.2

theorem near_colour_is_filled_witness :
    clickOutcome 2 white2x2 0 0 nearWhite = Outcome.filled ∧
    ∃ d', floodFill 2 2 white2x2 0 0 nearWhite = some d' ∧
      pixel d' 2 0 0 = [some nearWhite.r, some nearWhite.g, some nearWhite.b, some 255] :=
  near_colour_is_filled 2 2 white2x2 0 0 nearWhite (by decide) (by unfold InB; decide)
    (by decide) 255 255 255 255 (by decide) (by decide) (Or.inl (by decide))

/-! ## Pushes and the bitmap -/

theorem fillStep_nil (w h : Nat) (sc : Sample) (fc : Rgba) (s : FillState)
    (hs : s.stack = []) : fillStep w h sc fc s = s := by
  simp [fillStep, hs]

theorem inv_iterate (w h : Nat) (d0 : List Nat) (sc : Sample) (fc : Rgba) (x0 y0 : Int)
    (s : FillState) (I : Inv w h d0 sc fc x0 y0 s) :
    ∀ n : Nat, Inv w h d0 sc fc x0 y0 ((fillStep w h sc fc)^[n] s) := by
  intro n
  induction n with
  | zero => exact I
  | succ n ih =>
    rw [Function.iterate_succ_apply']
    cases hs : ((fillStep w h sc fc)^[n] s).stack with
    | nil => rw [fillStep_nil w h sc fc _ hs]; exact ih
    | cons q rest =>
      obtain ⟨cx, cy⟩ := q
      exact (step_facts w h d0 sc fc x0 y0 _ ih cx cy rest hs).1

theorem visitedAt_of_getElem (v : List Bool) (k : Int) (h0 : 0 ≤ k)
    (hv : v[k.toNat]? = some true) : visitedAt v k = true := by
  unfold visitedAt
  have hk : ¬ k < 0 := by omega
  simp [hk, hv]

theorem visitedAt_nonneg (v : List Bool) (k : Int) (hv : visitedAt v k = true) : 0 ≤ k := by
  unfold visitedAt at hv
  by_contra hneg
  have hk : k < 0 := by omega
  simp [hk] at hv

theorem vis_step_mono (w h : Nat) (d0 : List Nat) (sc : Sample) (fc : Rgba) (x0 y0 : Int)
    (s : FillState) (I : Inv w h d0 sc fc x0 y0 s) (q : Int × Int)
    (hv : vis w s.visited q.1 q.2 = true) :
    vis w (fillStep w h sc fc s).visited q.1 q.2 = true := by
  cases hs : s.stack with
  | nil => rw [fillStep_nil w h sc fc s hs]; exact hv
  | cons p rest =>
    obtain ⟨cx, cy⟩ := p
    obtain ⟨_, _, _, hmono, _⟩ := step_facts w h d0 sc fc x0 y0 s I cx cy rest hs
    unfold vis at hv ⊢
    exact visitedAt_of_getElem _ _ (visitedAt_nonneg _ _ hv)
      (hmono _ (visitedAt_true _ _ hv))

theorem vis_iterate_mono (w h : Nat) (d0 : List Nat) (sc : Sample) (fc : Rgba) (x0 y0 : Int)
    (s : FillState) (I : Inv w h d0 sc fc x0 y0 s) (q : Int × Int) (n : Nat)
    (hv : vis w ((fillStep w h sc fc)^[n] s).visited q.1 q.2 = true) :
    ∀ k : Nat, vis w ((fillStep w h sc fc)^[n + k] s).visited q.1 q.2 = true := by
  intro k
  induction k with
  | zero => exact hv
  | succ k ih =>
    rw [← Nat.add_assoc, Function.iterate_succ_apply']
    exact vis_step_mono w h d0 sc fc x0 y0 _ (inv_iterate w h d0 sc fc x0 y0 s I (n + k)) q ih

theorem stepPushes_unmarked (w h : Nat) (d0 : List Nat) (sc : Sample) (fc : Rgba) (x0 y0 : Int)
    (s : FillState) (I : Inv w h d0 sc fc x0 y0 s) (q : Int × Int)
    (hq : q ∈ stepPushes w h sc fc s) :
    vis w (fillStep w h sc fc s).visited q.1 q.2 = false := by
  cases hs : s.stack with
  | nil =>
    unfold stepPushes at hq
    rw [fillStep_nil w h sc fc s hs, hs] at hq
    simp at hq
  | cons p rest =>
    obtain ⟨cx, cy⟩ := p
    obtain ⟨_, _, _, _, _, pushes, hstack, _, hpvis⟩ :=
      step_facts w h d0 sc fc x0 y0 s I cx cy rest hs
    unfold stepPushes at hq
    rw [hstack, hs] at hq
    have hlen : (pushes ++ rest).length + 1 - ((cx, cy) :: rest).length = pushes.length := by
      simp only [List.length_append, List.length_cons]
      omega
    rw [hlen, List.take_left'] at hq
    · exact hpvis q hq
    · rfl

/-- C17, as the code has it. The bitmap is marked when a pixel is painted, not
when its coordinate is pushed: once a coordinate is marked visited, no later pop
pushes it; before that the same coordinate can be pushed more than once. -/
theorem no_push_once_marked (w h : Nat) (data : List Nat) (x y : Int) (fc : Rgba)
    (hlen : data.length = 4 * w * h) (hseed : InB w h x y) (n m : Nat) (hnm : n ≤ m)
    (q : Int × Int)
    (hvis : vis w ((fillStep w h (startColor data w x y) fc)^[n]
      (initState data w h x y)).visited q.1 q.2 = true) :
    q ∉ stepPushes w h (startColor data w x y) fc
      ((fillStep w h (startColor data w x y) fc)^[m] (initState data w h x y)) := by
  intro hq
  have I := inv_init w h data fc x y hlen hseed
  have h1 := vis_iterate_mono w h data _ fc x y _ I q n hvis (m - n)
  rw [show n + (m - n) = m by omega] at h1
  have h2 := vis_step_mono w h data _ fc x y _ (inv_iterate w h data _ fc x y _ I m) q h1
  have h3 := stepPushes_unmarked w h data _ fc x y _ (inv_iterate w h data _ fc x y _ I m) q hq
  rw [h2] at h3
  exact absurd h3 (by simp)

theorem no_push_once_marked_witness :
    (0, 0) ∉ stepPushes 3 3 (startColor ring3 3 0 0) red
      ((fillStep 3 3 (startColor ring3 3 0 0) red)^[2] (initState ring3 3 3 0 0)) :=
  no_push_once_marked 3 3 ring3 0 0 red (by decide) (by unfold InB; decide) 1 2 (by decide)
    (0, 0) (by decide)

/-- C17 fails as stated: in the fill of `ring3` from `(0, 0)` the coordinate
`(0, 1)` is pushed by the first pop (from the row above) and again by the third
pop (from the row below), before it is painted by the fourth. -/
theorem coordinate_pushed_twice :
    pushLog 3 3 (startColor ring3 3 0 0) red 5 (initState ring3 3 3 0 0) =
      [(2, 1), (0, 1), (2, 2), (0, 1)] ∧
    (pushLog 3 3 (startColor ring3 3 0 0) red 5 (initState ring3 3 3 0 0)).count (0, 1) = 2 ∧
    ((fillStep 3 3 (startColor ring3 3 0 0) red)^[5] (initState ring3 3 3 0 0)).stack = [] := by
  decide


/-! ## Bounds of every access -/

theorem scanLeftTrace_cells (d : List Nat) (w : Nat) (cy : Int) (sc : Sample) :
    ∀ (k : Nat) (q : Int × Int), q ∈ scanLeftTrace d w cy sc k →
      0 ≤ q.1 ∧ q.1 ≤ (k : Int) ∧ q.2 = cy := by
  intro k
  induction k with
  | zero =>
    intro q hq
    simp only [scanLeftTrace, List.mem_singleton] at hq
    rw [hq]
    exact ⟨le_refl _, by simp, rfl⟩
  | succ k ih =>
    intro q hq
    simp only [scanLeftTrace, List.mem_cons] at hq
    rcases hq with hq | hq
    · rw [hq]
      exact ⟨by push_cast; omega, by push_cast; omega, rfl⟩
    · split at hq
      · obtain ⟨a1, a2, a3⟩ := ih q hq
        exact ⟨a1, by push_cast; omega, a3⟩
      · simp at hq

theorem scanRightTrace_cells (w h : Nat) (cy : Int) (sc : Sample) (fc : Rgba) :
    ∀ (n : Nat) (sx : Int) (d : List Nat) (q : Int × Int),
      q ∈ scanRightTrace w h cy sc fc n sx d →
      sx ≤ q.1 ∧ q.1 < sx + (n : Int) ∧
        (q.2 = cy ∨ (q.2 = cy - 1 ∧ 0 < cy) ∨ (q.2 = cy + 1 ∧ cy < (h : Int) - 1)) := by
  intro n
  induction n with
  | zero =>
    intro sx d q hq
    simp [scanRightTrace] at hq
  | succ n ih =>
    intro sx d q hq
    rw [scanRightTrace] at hq
    split at hq
    · simp only [List.mem_singleton] at hq
      rw [hq]
      exact ⟨le_refl _, by push_cast; omega, Or.inl rfl⟩
    · simp only [List.mem_cons, List.mem_append, mem_ite_singleton] at hq
      rcases hq with hq | hq | ⟨hc, hq⟩ | ⟨hc, hq⟩ | hq
      · rw [hq]; exact ⟨le_refl _, by push_cast; omega, Or.inl rfl⟩
      · rw [hq]; exact ⟨le_refl _, by push_cast; omega, Or.inl rfl⟩
      · rw [hq]; exact ⟨le_refl _, by push_cast; omega, Or.inr (Or.inl ⟨rfl, hc⟩)⟩
      · rw [hq]; exact ⟨le_refl _, by push_cast; omega, Or.inr (Or.inr ⟨rfl, hc⟩)⟩
      · obtain ⟨a1, a2, a3⟩ := ih (sx + 1) _ q hq
        exact ⟨by omega, by push_cast; omega, a3⟩

theorem stepTrace_cells (w h : Nat) (sc : Sample) (fc : Rgba) (s : FillState)
    (hstack : ∀ p ∈ s.stack, InB w h p.1 p.2) (q : Int × Int)
    (hq : q ∈ stepTrace w h sc fc s) : InB w h q.1 q.2 := by
  unfold stepTrace at hq
  cases hs : s.stack with
  | nil => rw [hs] at hq; simp at hq
  | cons p rest =>
    obtain ⟨cx, cy⟩ := p
    rw [hs] at hq
    simp only [List.mem_append] at hq
    obtain ⟨hx0, hxw, hy0, hyh⟩ := hstack (cx, cy) (by rw [hs]; exact List.mem_cons_self _ _)
    simp only at hx0 hxw hy0 hyh
    rcases hq with hq | hq
    · unfold leftTrace at hq
      have hk : ¬ cx < 0 := by omega
      simp only [hk, if_false] at hq
      obtain ⟨a1, a2, a3⟩ := scanLeftTrace_cells s.data w cy sc cx.toNat q hq
      have hc : ((cx.toNat : Nat) : Int) = cx := Int.toNat_of_nonneg hx0
      exact ⟨a1, by omega, by rw [a3]; exact hy0, by rw [a3]; exact hyh⟩
    · obtain ⟨b1, b2, _, _⟩ := scanLeft_spec s.data w cy sc cx hx0
      obtain ⟨a1, a2, a3⟩ := scanRightTrace_cells w h cy sc fc _ _ _ q hq
      refine ⟨by omega, by omega, ?_, ?_⟩
      · rcases a3 with e | ⟨e, _⟩ | ⟨e, _⟩ <;> omega
      · rcases a3 with e | ⟨e, _⟩ | ⟨e, _⟩ <;> omega

theorem cell_indices (w h : Nat) (x y : Int) (hb : InB w h x y) :
    0 ≤ byteIdx w x y ∧ byteIdx w x y + 3 < 4 * ((w : Int) * (h : Int)) ∧
    0 ≤ y * (w : Int) + x ∧ y * (w : Int) + x < (w : Int) * (h : Int) ∧
    (y * (w : Int) + x) / (w : Int) = y ∧ (y * (w : Int) + x) % (w : Int) = x := by
  obtain ⟨l0, l1⟩ := lin_bounds w h x y hb
  obtain ⟨hx0, hxw, _, _⟩ := hb
  have hwpos : (0 : Int) < (w : Int) := by omega
  refine ⟨by unfold byteIdx; omega, by unfold byteIdx; omega, l0, l1, ?_, ?_⟩
  · rw [Int.add_comm, Int.add_mul_ediv_right _ _ (by omega), Int.ediv_eq_zero_of_lt hx0 hxw]
    omega
  · rw [Int.add_comm, Int.add_mul_emod_self, Int.emod_eq_of_lt hx0 hxw]

/-- C18. Bounds safety: during the fill from a seed inside the buffer, after any
number of pops every coordinate on the work stack lies inside the buffer, and
every cell for which the next pop computes an index (to compare, to write, to
mark or to test `visited`) lies inside the buffer; its byte index is in
`[0, 4 w h)` with the three following bytes, its bitmap index is in `[0, w h)`,
and that index belongs to the row it was computed for. -/
theorem fill_in_bounds (w h : Nat) (data : List Nat) (x y : Int) (fc : Rgba)
    (hlen : data.length = 4 * w * h) (hseed : InB w h x y) (n : Nat) :
    (∀ q ∈ ((fillStep w h (startColor data w x y) fc)^[n] (initState data w h x y)).stack,
      InB w h q.1 q.2) ∧
    (∀ q ∈ stepTrace w h (startColor data w x y) fc
        ((fillStep w h (startColor data w x y) fc)^[n] (initState data w h x y)),
      InB w h q.1 q.2 ∧
      0 ≤ byteIdx w q.1 q.2 ∧ byteIdx w q.1 q.2 + 3 < 4 * ((w : Int) * (h : Int)) ∧
      0 ≤ q.2 * (w : Int) + q.1 ∧ q.2 * (w : Int) + q.1 < (w : Int) * (h : Int) ∧
      (q.2 * (w : Int) + q.1) / (w : Int) = q.2 ∧ (q.2 * (w : Int) + q.1) % (w : Int) = q.1) := by
  have I := inv_iterate w h data _ fc x y _ (inv_init w h data fc x y hlen hseed) n
  have hstack : ∀ q ∈ ((fillStep w h (startColor data w x y) fc)^[n]
      (initState data w h x y)).stack, InB w h q.1 q.2 :=
    fun q hq => (reach_matches w h data _ x y q.1 q.2 (I.stack_ok q hq)).1
  refine ⟨hstack, ?_⟩
  intro q hq
  have hb := stepTrace_cells w h _ fc _ hstack q hq
  exact ⟨hb, cell_indices w h q.1 q.2 hb⟩

theorem fill_in_bounds_witness :
    (∀ q ∈ ((fillStep 4 4 (startColor framed4 4 1 1) red)^[1] (initState framed4 4 4 1 1)).stack,
      InB 4 4 q.1 q.2) ∧
    (∀ q ∈ stepTrace 4 4 (startColor framed4 4 1 1) red
        ((fillStep 4 4 (startColor framed4 4 1 1) red)^[1] (initState framed4 4 4 1 1)),
      InB 4 4 q.1 q.2 ∧
      0 ≤ byteIdx 4 q.1 q.2 ∧ byteIdx 4 q.1 q.2 + 3 < 4 * (((4 : Nat) : Int) * ((4 : Nat) : Int)) ∧
      0 ≤ q.2 * ((4 : Nat) : Int) + q.1 ∧
      q.2 * ((4 : Nat) : Int) + q.1 < ((4 : Nat) : Int) * ((4 : Nat) : Int) ∧
      (q.2 * ((4 : Nat) : Int) + q.1) / ((4 : Nat) : Int) = q.2 ∧
      (q.2 * ((4 : Nat) : Int) + q.1) % ((4 : Nat) : Int) = q.1) :=
  fill_in_bounds 4 4 framed4 1 1 red (by decide) (by unfold InB; decide) 1

/-! ## Undo and redo with the deferred `restore` -/

theorem undo_is_click_then_load (a : App) : imageLoaded (undoClick (idle a)) 0 = idle (undo a) := by
  unfold undoClick undo idle imageLoaded
  cases hl : a.undoStack.getLast? with
  | none => simp
  | some prev => simp

theorem redo_is_click_then_load (a : App) : imageLoaded (redoClick (idle a)) 0 = idle (redo a) := by
  unfold redoClick redo idle imageLoaded
  cases hl : a.redoStack.getLast? with
  | none => simp
  | some next => simp

/-- C10, as the code has it. `restore` draws only when its image has loaded.
From a state with no image loading, if the load started by the first handler
completes before the second handler runs, and the second load completes too,
then redo undoes undo (non-empty `undoStack`) and undo undoes redo (non-empty
`redoStack`): canvas and both stacks are as before. -/
theorem redo_undo_after_load (a : AppD) (hidle : a.loading = []) :
    (a.undoStack ≠ [] → imageLoaded (redoClick (imageLoaded (undoClick a) 0)) 0 = a) ∧
    (a.redoStack ≠ [] → imageLoaded (undoClick (imageLoaded (redoClick a) 0)) 0 = a) := by
  obtain ⟨c, u, r, l⟩ := a
  simp only at hidle
  subst hidle
  constructor
  · intro hne
    simp only at hne
    cases hl : u.getLast? with
    | none => exact absurd (List.getLast?_eq_none_iff.mp hl) hne
    | some prev =>
      have hd : u.dropLast ++ [prev] = u := List.dropLast_append_getLast? prev (by rw [hl]; rfl)
      simp [undoClick, redoClick, imageLoaded, hl, hd]
  · intro hne
    simp only at hne
    cases hl : r.getLast? with
    | none => exact absurd (List.getLast?_eq_none_iff.mp hl) hne
    | some next =>
      have hd : r.dropLast ++ [next] = r := List.dropLast_append_getLast? next (by rw [hl]; rfl)
      simp [undoClick, redoClick, imageLoaded, hl, hd]

theorem redo_undo_after_load_witness :
    imageLoaded (redoClick (imageLoaded (undoClick ⟨framed4Red, [framed4], [], []⟩) 0)) 0 =
      ⟨framed4Red, [framed4], [], []⟩ ∧
    imageLoaded (undoClick (imageLoaded (redoClick ⟨framed4, [], [framed4Red], []⟩) 0)) 0 =
      ⟨framed4, [], [framed4Red], []⟩ :=
  ⟨(redo_undo_after_load ⟨framed4Red, [framed4], [], []⟩ rfl).1 (by decide),
   (redo_undo_after_load ⟨framed4, [], [framed4Red], []⟩ rfl).2 (by decide)⟩

/-- C10 fails as stated: from canvas `framed4Red` with `undoStack = [framed4]`,
an undo followed by a redo that runs before the image of the undo has loaded
pushes the stale canvas; after both loads `undoStack` is `[framed4Red]` and
`framed4` is lost. -/
theorem redo_before_load_loses_entry :
    redoClick (undoClick ⟨framed4Red, [framed4], [], []⟩) =
      ⟨framed4Red, [framed4Red], [], [framed4, framed4Red]⟩ ∧
    imageLoaded (imageLoaded (redoClick (undoClick ⟨framed4Red, [framed4], [], []⟩)) 0) 0 =
      ⟨framed4Red, [framed4Red], [], []⟩ ∧
    imageLoaded (imageLoaded (redoClick (undoClick ⟨framed4Red, [framed4], [], []⟩)) 0) 0 ≠
      ⟨framed4Red, [framed4], [], []⟩ := by
  decide

end ColouringIn
